import Mathlib

/-!
# Verification of a Chord-style distributed hash table ring

This file is a shallow embedding, in Lean 4, of the Chord ring implementation
in `src/Chord/chord.py`, together with theorems settling the specification
claims about it.

Modelling conventions:

* Python object references between nodes (`successor`, `predecessor`, finger
  entries, `start_node` arguments) are represented by node identifiers
  (`Nat`), resolved against the ring's membership list; all states produced
  by the ring's own operations have distinct identifiers, under which this
  representation is faithful.
* Fallible code (an `AttributeError` from dereferencing `None`, an unresolvable
  reference) is modelled by `Option`: a `none` result stands for a raised
  exception.
* The per-node storage engine (`BPlusTree`, imported by the source from an
  external module and declared an external collaborator by the specification,
  §6 StorageBackend) is modelled from the spec: an ordered association list
  supporting `insert`, `search_key`, `delete` (removing all records under a
  key) and `get_all_items`.
* The hash primitive (`hashlib.sha1` inside `chord_hash`) is external; it is
  modelled as an arbitrary function parameter `sha1_int : String → Nat`, with
  the source's reduction modulo `2 ^ m` kept explicit.
* Python's stable `list.sort(key=...)` is modelled by `List.insertionSort`
  (a stable sort); on lists with distinct keys any stable sort agrees.
* The unbounded `while True` loop of `find_successor` is modelled with
  explicit fuel `max_steps + 2`; the loop body increments `hops` each
  iteration and exits once `hops > max_steps`, so the fuel is never
  exhausted (`fs_loop` returning `none` through fuel exhaustion is
  unreachable, as proved below).
-/

namespace Chord

/-- A stored record: an opaque, mutable, field-addressable value
(a Python dict of movie fields), modelled as an association list. -/
abbrev Rec := List (String × String)

/-- Storage insert (`BPlusTree.insert(record, key)`), modelled from the spec:
append a (key, record) pair; several records may share one key. -/
def btree_insert (t : List (Nat × Rec)) (record : Rec) (key : Nat) : List (Nat × Rec) :=
  t ++ [(key, record)]

/-- Storage point lookup (`BPlusTree.search_key`), modelled from the spec:
all records stored under `key`, in storage order. -/
def search_key (t : List (Nat × Rec)) (key : Nat) : List Rec :=
  (t.filter (fun p => p.1 == key)).map (fun p => p.2)

/-- Storage delete (`BPlusTree.delete`), modelled from the spec:
remove every record under `key`; no-op if absent. -/
def btree_delete (t : List (Nat × Rec)) (key : Nat) : List (Nat × Rec) :=
  t.filter (fun p => p.1 != key)

/-- Storage enumeration (`BPlusTree.get_all_items`), modelled from the spec:
the full list of (key, record) pairs. -/
def get_all_items (t : List (Nat × Rec)) : List (Nat × Rec) := t

/-- `chord_hash(value, m)`: the external SHA-1 integer (parameter `sha1_int`,
modelled from the spec as an arbitrary deterministic function) reduced into
the identifier space `[0, 2^m)`. -/
def chord_hash (sha1_int : String → Nat) (value : String) (m : Nat) : Nat :=
  sha1_int value % 2 ^ m

/-- A ring member (`ChordNode`): identifier, storage, successor/predecessor
references and a finger table, references represented by node ids. -/
structure ChordNode where
  node_id : Nat
  btree : List (Nat × Rec)
  successor : Option Nat
  predecessor : Option Nat
  finger : List (Option Nat)
deriving DecidableEq

/-- `ChordNode.__init__`: fresh node with empty storage, no links, and a
finger table of `m` empty slots. -/
def mk_node (node_id m : Nat) : ChordNode :=
  { node_id := node_id, btree := [], successor := none, predecessor := none,
    finger := List.replicate m none }

/-- The ring (`ChordRing`): identifier-space width `m` and the owning
membership list. -/
structure ChordRing where
  m : Nat
  nodes : List ChordNode
deriving DecidableEq

/-- The node ids of the membership list (helper for stating invariants). -/
def ids (r : ChordRing) : List Nat := r.nodes.map (fun n => n.node_id)

/-- Resolve a node reference: the first member with this id (Python holds
direct object references; ids are unique in states the ring itself builds). -/
def getNode (r : ChordRing) (id : Nat) : Option ChordNode :=
  r.nodes.find? (fun n => n.node_id == id)

/-- Rewrite the first member carrying `id` (Python mutates that object). -/
def set_node (ns : List ChordNode) (id : Nat) (f : ChordNode → ChordNode) :
    List ChordNode :=
  match ns with
  | [] => []
  | n :: rest =>
    if n.node_id == id then f n :: rest else n :: set_node rest id f

/-- `ChordRing._in_interval(key, start, end)`: membership of `key` in the
circular arc `(start, end]`. -/
def in_interval (key start stop : Nat) : Bool :=
  if start < stop then decide (start < key ∧ key ≤ stop)
  else decide (key > start ∨ key ≤ stop)

/-- `ChordRing._update_links()`: successor and predecessor of every node are
recomputed from the sorted order, by adjacent index modulo the length. -/
def update_links (ns : List ChordNode) : List ChordNode :=
  (List.finRange ns.length).map fun i =>
    { ns.get i with
      successor := some (ns.get ⟨(i.val + 1) % ns.length, Nat.mod_lt _ i.pos⟩).node_id,
      predecessor := some (ns.get ⟨(i.val + ns.length - 1) % ns.length, Nat.mod_lt _ i.pos⟩).node_id }

/-- `ChordRing.find_successor_linear(key)`: first member (in list order, the
list being kept sorted) with id `≥ key`, else the first member; `none` models
the `IndexError` on an empty ring. -/
def find_successor_linear (r : ChordRing) (key : Nat) : Option Nat :=
  match r.nodes.find? (fun node => key ≤ node.node_id) with
  | some node => some node.node_id
  | none => r.nodes.head?.map (fun n => n.node_id)

/-- `ChordRing.closest_preceding_finger(node, key)`: scan the finger table
from index `m - 1` down to `0`, returning the first present finger whose id
passes `_in_interval(finger.node_id, node.node_id, key)`; if none qualifies,
the node itself (its id). `cpf_scan m` examines indices `m-1, m-2, ..., 0`. -/
def cpf_scan (node : ChordNode) (key : Nat) : Nat → Nat
  | 0 => node.node_id
  | i + 1 =>
    match node.finger.get? i with
    | some (some fid) =>
      if in_interval fid node.node_id key then fid else cpf_scan node key i
    | _ => cpf_scan node key i

/-- `ChordRing.closest_preceding_finger(node, key)` (entry point). -/
def closest_preceding_finger (m : Nat) (node : ChordNode) (key : Nat) : Nat :=
  cpf_scan node key m

/-- The routing-step candidate selection of `find_successor`
(`nxt = closest_preceding_finger(curr, key); if nxt is None or nxt is curr:
nxt = succ`): the finger candidate, except that the successor (`sid`) is used
when the candidate is the current node itself. `closest_preceding_finger`
never returns `None`, so only the self-candidate guard is reachable. -/
def next_hop_id (m : Nat) (curr : ChordNode) (sid key : Nat) : Nat :=
  let nxt := closest_preceding_finger m curr key
  if nxt == curr.node_id then sid else nxt

/-- The body of `find_successor`'s `while True:` loop, with explicit fuel.
Returns `some (owner_id, hops)`; `none` models a raised exception
(an unresolvable reference), and is never produced by fuel exhaustion when
started with fuel `maxSteps + 2` (proved below). -/
def fs_loop (r : ChordRing) (key maxSteps : Nat) :
    Nat → ChordNode → Nat → Option (Nat × Nat)
  | 0, _, _ => none
  | fuel + 1, curr, hops =>
    if key == curr.node_id then some (curr.node_id, hops)
    else
      match curr.successor with
      | none => none
      | some sid =>
        match getNode r sid with
        | none => none
        | some succ =>
          if in_interval key curr.node_id succ.node_id then
            some (succ.node_id, hops + 1)
          else
            let nxtId := next_hop_id r.m curr sid key
            if hops + 1 > maxSteps then
              match find_successor_linear r key with
              | some lid => some (lid, hops + 1)
              | none => none
            else
              match getNode r nxtId with
              | none => none
              | some nxtNode => fs_loop r key maxSteps fuel nxtNode (hops + 1)

/-- `ChordRing.find_successor(key, start_node)`: `some (none, 0)` on an empty
ring, otherwise route from `start_node` (default: the first member) under the
safety bound `max 4 (4 * n)`. The outer `none` models a raised exception. -/
def find_successor (r : ChordRing) (key : Nat) (start_node : Option Nat) :
    Option (Option Nat × Nat) :=
  match r.nodes with
  | [] => some (none, 0)
  | n0 :: _ =>
    let startN : Option ChordNode :=
      match start_node with
      | some sid => getNode r sid
      | none => some n0
    match startN with
    | none => none
    | some s =>
      let maxSteps := max 4 (r.nodes.length * 4)
      match fs_loop r key maxSteps (maxSteps + 2) s 0 with
      | some (nid, hops) => some (some nid, hops)
      | none => none

/-- `ChordRing.insert(key_int, record, start_node)`: route to the owner and
store there; dereferencing the `None` node of an empty ring raises
(`none`). -/
def insert (r : ChordRing) (key_int : Nat) (record : Rec)
    (start_node : Option Nat) : Option (ChordRing × Nat) :=
  match find_successor r key_int start_node with
  | some (some nid, hops) =>
    let ns := set_node r.nodes nid
      (fun n => { n with btree := btree_insert n.btree record key_int })
    some ({ r with nodes := ns }, hops)
  | some (none, _) => none
  | none => none

/-- `ChordRing.insert_title(movie_title, record, start_node)`. -/
def insert_title (sha1_int : String → Nat) (r : ChordRing)
    (movie_title : String) (record : Rec) (start_node : Option Nat) :
    Option (ChordRing × Nat) :=
  insert r (chord_hash sha1_int movie_title r.m) record start_node

/-- `ChordRing.lookup(movie_title, start_node)`: the records stored under the
hashed title at its owner, plus the routing hops. -/
def lookup (sha1_int : String → Nat) (r : ChordRing) (movie_title : String)
    (start_node : Option Nat) : Option (List Rec × Nat) :=
  let key_int := chord_hash sha1_int movie_title r.m
  match find_successor r key_int start_node with
  | some (some nid, hops) =>
    match getNode r nid with
    | some node => some (search_key node.btree key_int, hops)
    | none => none
  | some (none, _) => none
  | none => none

/-- `ChordRing.delete_key(key_int, start_node)`. -/
def delete_key (r : ChordRing) (key_int : Nat) (start_node : Option Nat) :
    Option (ChordRing × Nat) :=
  match find_successor r key_int start_node with
  | some (some nid, hops) =>
    let ns := set_node r.nodes nid
      (fun n => { n with btree := btree_delete n.btree key_int })
    some ({ r with nodes := ns }, hops)
  | some (none, _) => none
  | none => none

/-- Python dict assignment `record[field] = new_value` on a record. -/
def set_field (record : Rec) (field value : String) : Rec :=
  if record.any (fun p => p.1 == field) then
    record.map (fun p => if p.1 == field then (p.1, value) else p)
  else record ++ [(field, value)]

/-- Mutate the first record stored under `key` (the object `records[0]`
aliases the storage entry, so the update is visible in the store). -/
def update_first_record (t : List (Nat × Rec)) (key : Nat)
    (field value : String) : List (Nat × Rec) :=
  match t with
  | [] => []
  | p :: rest =>
    if p.1 == key then (p.1, set_field p.2 field value) :: rest
    else p :: update_first_record rest key field value

/-- `ChordRing.update_movie_field(title, field, new_value, start_node)`:
returns `(state, ok, hops)`; `ok = false` with the lookup's hop count when no
record exists under the hashed title. -/
def update_movie_field (sha1_int : String → Nat) (r : ChordRing)
    (title field new_value : String) (start_node : Option Nat) :
    Option (ChordRing × Bool × Nat) :=
  let key_int := chord_hash sha1_int title r.m
  match find_successor r key_int start_node with
  | some (some nid, hops) =>
    match getNode r nid with
    | some node =>
      if (search_key node.btree key_int).isEmpty then some (r, false, hops)
      else
        let ns := set_node r.nodes nid
          (fun n => { n with btree := update_first_record n.btree key_int field new_value })
        some ({ r with nodes := ns }, true, hops)
    | none => none
  | some (none, _) => none
  | none => none

/-- `ChordRing.init_finger_table(node)`: entry `i` is the linear successor of
`(node_id + 2^i) mod 2^m`. -/
def init_finger_table (r : ChordRing) (node : ChordNode) : ChordNode :=
  { node with finger :=
      (List.range r.m).map (fun i =>
        find_successor_linear r ((node.node_id + 2 ^ i) % 2 ^ r.m)) }

/-- `ChordRing.fix_all_fingers()`: rebuild every member's finger table. -/
def fix_all_fingers (r : ChordRing) : ChordRing :=
  { r with nodes := r.nodes.map (init_finger_table r) }

/-- The comparison key of `self.nodes.sort(key=lambda n: n.node_id)`. -/
def node_le (a b : ChordNode) : Prop := a.node_id ≤ b.node_id

instance : DecidableRel node_le := fun a b => Nat.decLe a.node_id b.node_id

instance : IsTotal ChordNode node_le :=
  ⟨fun a b => Nat.le_total a.node_id b.node_id⟩

instance : IsTrans ChordNode node_le :=
  ⟨fun _ _ _ hab hbc => Nat.le_trans hab hbc⟩

/-- One iteration of `_redistribute_keys`' loop over the successor's items:
skip the item unless its key lies in `(pred, new]`; otherwise route it from
the successor (purely to accumulate hop cost), insert it at the new node and
delete its key from the successor. -/
def redistribute_step (new_id succ_id pred_id : Nat)
    (acc : Option (ChordRing × Nat × Nat)) (item : Nat × Rec) :
    Option (ChordRing × Nat × Nat) :=
  match acc with
  | none => none
  | some (r', total_hops, moved) =>
    if in_interval item.1 pred_id new_id then
      match find_successor r' item.1 (some succ_id) with
      | some (_, hops) =>
        let ns :=
          set_node
            (set_node r'.nodes new_id
              (fun n => { n with btree := btree_insert n.btree item.2 item.1 }))
            succ_id
            (fun n => { n with btree := btree_delete n.btree item.1 })
        some ({ r' with nodes := ns }, total_hops + hops, moved + 1)
      | none => none
    else acc

/-- `ChordRing._redistribute_keys(new_node)`: move each of the successor's
items whose key lies in `(pred, new]` to the new node, routing it first (from
the successor) purely to accumulate hop cost. Returns the updated ring plus
`(migrate_hops, moved)`. -/
def redistribute_keys (r : ChordRing) (new_id : Nat) :
    Option (ChordRing × Nat × Nat) :=
  match getNode r new_id with
  | none => none
  | some new_node =>
    match new_node.predecessor, new_node.successor with
    | some pred_id, some succ_id =>
      match getNode r succ_id with
      | none => none
      | some succ_node =>
        (get_all_items succ_node.btree).foldl
          (redistribute_step new_id succ_id pred_id) (some (r, 0, 0))
    | _, _ => none

/-- `ChordRing.join_node(node_id, start_node)`: locate the attachment point
(for cost), insert a fresh node, re-sort, relink, migrate keys when more than
one node exists, rebuild all finger tables. Returns
`(ring, locate_hops, moved_cnt)`; the new node is the member carrying
`node_id`. -/
def join_node (r : ChordRing) (node_id : Nat) (start_node : Option Nat) :
    Option (ChordRing × Nat × Nat) :=
  let locate : Option Nat :=
    match r.nodes with
    | [] => some 0
    | _ :: _ =>
      match find_successor r node_id start_node with
      | some (_, h) => some h
      | none => none
  match locate with
  | none => none
  | some locate_hops =>
    let ns1 := update_links ((r.nodes ++ [mk_node node_id r.m]).insertionSort node_le)
    let r1 : ChordRing := { r with nodes := ns1 }
    if 1 < r1.nodes.length then
      match redistribute_keys r1 node_id with
      | none => none
      | some (r2, _migrate_hops, moved) =>
        some (fix_all_fingers r2, locate_hops, moved)
    else
      some (fix_all_fingers r1, locate_hops, 0)

/-- `ChordRing.leave_node(node_id, start_node)`: fail on an unknown id; drop a
lone node outright; otherwise route to the id (for cost), move every stored
item to the successor, remove the node, relink and rebuild fingers. Returns
`(ring, ok, routing_hops, moved)`. -/
def leave_node (r : ChordRing) (node_id : Nat) (start_node : Option Nat) :
    Option (ChordRing × Bool × Nat × Nat) :=
  match r.nodes.find? (fun n => n.node_id == node_id) with
  | none => some (r, false, 0, 0)
  | some node =>
    if r.nodes.length == 1 then
      some ({ r with nodes := r.nodes.eraseP (fun n => n.node_id == node_id) },
            true, 0, 0)
    else
      match find_successor r node_id start_node with
      | none => none
      | some (_, routing_hops) =>
        match node.successor with
        | none => none
        | some succ_id =>
          let items := get_all_items node.btree
          let ns1 := set_node r.nodes succ_id
            (fun n => { n with btree := items.foldl (fun t item => btree_insert t item.2 item.1) n.btree })
          let r2 : ChordRing :=
            { r with nodes := update_links (ns1.eraseP (fun n => n.node_id == node_id)) }
          some (fix_all_fingers r2, true, routing_hops, items.length)

/-! ## Specification-side definitions

Definitions in this section are written from the specification's words, for
comparison against the source-derived definitions above. -/

/-- The claimed arc membership, from the spec's words: `key` lies in the
circular open-start/closed-end arc `(start, end]`; the ordinary range test
when `start < end`, wrapping through the maximum value back to zero when
`start >= end`. -/
def inIntervalSpec (key start stop : Nat) : Prop :=
  if start < stop then start < key ∧ key ≤ stop
  else key > start ∨ key ≤ stop

/-- The circular OPEN arc `(start, stop)` used by the claim about
`closest_preceding_finger`: both endpoints excluded. -/
def open_arc (x start stop : Nat) : Bool :=
  if start < stop then decide (start < x ∧ x < stop)
  else decide (x > start ∨ x < stop)

/-- The claim's reading of the finger scan: from the longest-reach entry
(index `m - 1`) down to the shortest, the first present finger whose id lies
in the circular open arc `(node.node_id, key)`; `none` when no finger
qualifies. -/
def cpf_claim_scan (node : ChordNode) (key : Nat) : Nat → Option Nat
  | 0 => none
  | i + 1 =>
    match node.finger.get? i with
    | some (some fid) =>
      if open_arc fid node.node_id key then some fid else cpf_claim_scan node key i
    | _ => cpf_claim_scan node key i

/-- The first qualifying finger in the top-down scan, under the arc test the
source actually uses (`_in_interval`, the half-open arc `(node.node_id, key]`),
phrased independently of the source's recursion as `findSome?` over the
reversed index range. -/
def cpf_first_qualifying (m : Nat) (node : ChordNode) (key : Nat) : Option Nat :=
  (List.range m).reverse.findSome? (fun i =>
    match node.finger.get? i with
    | some (some fid) =>
      if in_interval fid node.node_id key then some fid else none
    | _ => none)

/-- The m = 8 example scenario: members 10, 36, 59, 101, linked and with
finger tables produced by the ring's own maintenance
(`_update_links` + `fix_all_fingers`). -/
def scenario_ring : ChordRing :=
  fix_all_fingers
    { m := 8, nodes := update_links [mk_node 10 8, mk_node 36 8, mk_node 59 8, mk_node 101 8] }

/-- A two-member ring (ids 10 and 20, m = 8), links and fingers maintained by
the ring's own maintenance; it stores no records. -/
def pair_ring : ChordRing :=
  fix_all_fingers { m := 8, nodes := update_links [mk_node 10 8, mk_node 20 8] }

/-- The lone member of the ring produced by joining node 10 into the empty
m = 8 ring: it is its own successor and predecessor and every finger points
back at it. -/
def singleton_node : ChordNode :=
  { node_id := 10, btree := [], successor := some 10, predecessor := some 10,
    finger := List.replicate 8 (some 10) }

/-- The ring produced by joining node 10 into the empty m = 8 ring. -/
def singleton_ring : ChordRing := { m := 8, nodes := [singleton_node] }

/-- A node whose finger table contains a finger (id 5) equal to the routing
key used against it, exhibiting the closed upper end of the source's finger
test. -/
def probe_node : ChordNode :=
  { node_id := 1, btree := [], successor := some 3, predecessor := some 3,
    finger := [none, none, some 5] }

/-! ## Well-formedness predicates and invariants -/

/-- Closed references: every member's successor reference is present and
resolves to a member id, and every present finger entry resolves to a member
id. (In Python the references are direct objects; this captures every state
whose references stay within the ring, which includes every state the ring's
own maintenance produces — with arbitrary, possibly corrupted, finger
targets.) -/
def refs_ok (r : ChordRing) : Bool :=
  r.nodes.all fun n =>
    (match n.successor with
     | some s => (ids r).contains s
     | none => false) &&
    n.finger.all (fun fo =>
      match fo with
      | some fid => (ids r).contains fid
      | none => true)

/-- A valid `start_node` argument: absent (Python defaults to `nodes[0]`) or a
member id. -/
def start_ok (r : ChordRing) (s : Option Nat) : Bool :=
  match s with
  | none => true
  | some sid => (ids r).contains sid

/-- The link-relevant projection of a node: its id and its two neighbour
references (used to state that an operation only touches storage and finger
tables). -/
def linkShape (n : ChordNode) : Nat × Option Nat × Option Nat :=
  (n.node_id, n.successor, n.predecessor)

/-- The projection of a node onto everything except its storage (used to
state that a data operation only touches storage). -/
def dataShape (n : ChordNode) :
    Nat × Option Nat × Option Nat × List (Option Nat) :=
  (n.node_id, n.successor, n.predecessor, n.finger)

/-- The storage-relevant projection of a node: its id and its stored pairs. -/
def storeShape (n : ChordNode) : Nat × List (Nat × Rec) :=
  (n.node_id, n.btree)

/-- The circular successor of the middle element of a split `l1 ++ x :: l2` of
a sorted membership list: the head of `l2`, else (wrapping) the head of `l1`,
else `x` itself. -/
def csucc (l1 l2 : List ChordNode) (x : ChordNode) : ChordNode :=
  (l2.head?).getD ((l1.head?).getD x)

/-- The circular predecessor of the middle element of a split
`l1 ++ x :: l2`: the last element of `l1`, else (wrapping) the last element of
`l2`, else `x` itself. -/
def cpred (l1 l2 : List ChordNode) (x : ChordNode) : ChordNode :=
  (l1.getLast?).getD ((l2.getLast?).getD x)

instance : IsAntisymm ChordNode (fun a b : ChordNode => a.node_id < b.node_id) :=
  ⟨fun _ _ hab hba => absurd hba (Nat.lt_asymm hab)⟩

/-- Membership list strictly sorted by node id (this also forces distinct
ids). -/
def SortedIds (ns : List ChordNode) : Prop :=
  List.Pairwise (fun a b : ChordNode => a.node_id < b.node_id) ns

/-- Membership list sorted by node id (possibly with duplicates). -/
def SortedIdsLe (ns : List ChordNode) : Prop :=
  List.Pairwise node_le ns

/-- The successor/predecessor link invariant: each member's links name its
neighbours by adjacent index modulo the ring size
(`nodes[i].successor == nodes[(i+1) % n]` and
`nodes[i].predecessor == nodes[(i-1) % n]`, with `(i-1) % n` written
`(i + n - 1) % n` in `Nat`). -/
def LinksOK (r : ChordRing) : Prop :=
  ∀ i, i < r.nodes.length →
    (r.nodes[i]?.map (fun n => n.successor) =
      (r.nodes[(i + 1) % r.nodes.length]?).map (fun n => some n.node_id)) ∧
    (r.nodes[i]?.map (fun n => n.predecessor) =
      (r.nodes[(i + r.nodes.length - 1) % r.nodes.length]?).map (fun n => some n.node_id))

/-- Every present finger entry resolves to a member id. -/
def FingersOK (r : ChordRing) : Prop :=
  ∀ n ∈ r.nodes, ∀ i fid, n.finger.get? i = some (some fid) → fid ∈ ids r

/-- The structural ring invariant maintained by the membership operations:
strictly sorted membership, correct neighbour links, resolvable fingers. -/
def Inv (r : ChordRing) : Prop :=
  SortedIds r.nodes ∧ LinksOK r ∧ FingersOK r

/-- Storage ownership: every stored key sits at the node that
`find_successor_linear` (the ring's ownership oracle) assigns it. -/
def StorageOK (r : ChordRing) : Prop :=
  ∀ v ∈ r.nodes, ∀ p ∈ v.btree, find_successor_linear r p.1 = some v.node_id

/-- The states reachable from an empty ring by `join_node` with fresh node
ids, `leave_node`, and `insert` — each operation required to complete without
raising (`some` result). -/
inductive Reach : ChordRing → Prop
  | empty (m : Nat) : Reach { m := m, nodes := [] }
  | join {r r' : ChordRing} {nid : Nat} {s : Option Nat} {h mv : Nat} :
      Reach r → nid ∉ ids r → join_node r nid s = some (r', h, mv) → Reach r'
  | leave {r r' : ChordRing} {nid : Nat} {s : Option Nat} {ok : Bool} {h mv : Nat} :
      Reach r → leave_node r nid s = some (r', ok, h, mv) → Reach r'
  | ins {r r' : ChordRing} {k : Nat} {rec : Rec} {s : Option Nat} {h : Nat} :
      Reach r → insert r k rec s = some (r', h) → Reach r'

/-! ## Claim theorems -/

/-- C2: for identifiers below `2 ^ m`, `_in_interval key start end` holds
exactly when `key` lies in the circular open-start/closed-end arc
`(start, end]`: the ordinary range test `start < key ≤ end` when
`start < end`, and the wrapped test `key > start ∨ key ≤ end` when
`start ≥ end`. -/
theorem c2_in_interval_correct (m key start stop : Nat)
    (_hk : key < 2 ^ m) (_hs : start < 2 ^ m) (_he : stop < 2 ^ m) :
    in_interval key start stop = true ↔ inIntervalSpec key start stop := by
  unfold in_interval inIntervalSpec
  split <;> simp

/-- Witness for C2 at m = 8, key = 200, start = 250, end = 40 (a wrapped
arc containing the key). -/
theorem c2_in_interval_correct_witness :
    (20 : Nat) < 2 ^ 8 ∧ (250 : Nat) < 2 ^ 8 ∧ (40 : Nat) < 2 ^ 8 ∧
      inIntervalSpec 20 250 40 := by
  refine ⟨by decide, by decide, by decide, ?_⟩
  exact (c2_in_interval_correct 8 20 250 40 (by decide) (by decide) (by decide)).mp (by decide)

/-- C5 counterexample: the claim says `closest_preceding_finger` returns the
first finger whose id lies in the OPEN interval `(current.id, key)`; but the
source tests `_in_interval(finger.node_id, node.node_id, key)`, the arc
`(current.id, key]` CLOSED at `key`. On `probe_node` (id 1, successor 3,
top finger 5) with key 5, the source returns finger 5, while under the
claim's open-interval rule no finger qualifies (the claim-side scan is
empty), so the routing step would have to fall back to the successor 3. -/
theorem c5_counterexample :
    closest_preceding_finger 3 probe_node 5 = 5 ∧
    cpf_claim_scan probe_node 5 3 = none ∧
    next_hop_id 3 probe_node 3 5 = 5 := by
  refine ⟨rfl, rfl, rfl⟩

/-- C5 amended: `closest_preceding_finger` scans the finger table from index
`m - 1` down to `0` and returns the first present finger whose id lies in the
HALF-OPEN circular arc `(current.id, key]` — falling back to the node itself
when none qualifies — and the routing step of `find_successor` advances to
that candidate, except that it advances to `current.successor` when no finger
qualified or the candidate is the current node itself. -/
theorem c5_closest_preceding_finger (m : Nat) (curr : ChordNode)
    (sid key : Nat) :
    closest_preceding_finger m curr key =
      (cpf_first_qualifying m curr key).getD curr.node_id ∧
    next_hop_id m curr sid key =
      (match cpf_first_qualifying m curr key with
       | some fid => if fid = curr.node_id then sid else fid
       | none => sid) := by
  have hscan : ∀ k : Nat, cpf_scan curr key k =
      ((List.range k).reverse.findSome? (fun i =>
        match curr.finger.get? i with
        | some (some fid) =>
          if in_interval fid curr.node_id key then some fid else none
        | _ => none)).getD curr.node_id := by
    intro k
    induction k with
    | zero => rfl
    | succ n ih =>
      rw [List.range_succ, List.reverse_append]
      simp only [List.reverse_cons, List.reverse_nil, List.nil_append,
        List.cons_append, List.findSome?_cons]
      rw [cpf_scan]
      cases hfin : curr.finger.get? n with
      | none => simpa [hfin] using ih
      | some fo =>
        cases fo with
        | none => simpa [hfin] using ih
        | some fid =>
          by_cases hin : in_interval fid curr.node_id key
          · simp [hfin, hin]
          · simpa [hfin, hin] using ih
  have h1 : closest_preceding_finger m curr key =
      (cpf_first_qualifying m curr key).getD curr.node_id := hscan m
  refine ⟨h1, ?_⟩
  unfold next_hop_id
  rw [h1]
  cases hq : cpf_first_qualifying m curr key with
  | none => simp
  | some fid =>
    by_cases hfid : fid = curr.node_id
    · simp [hfid]
    · simp [hfid]

/-- C7: on the m = 8 ring with members {10, 36, 59, 101} linked circularly and
finger tables built by the ring's own maintenance, `find_successor 40` returns
the node with id 59 (in 2 hops) and `find_successor 200` returns the node with
id 10 (wrapping, in 2 hops). -/
theorem c7_example_scenario :
    find_successor scenario_ring 40 none = some (some 59, 2) ∧
    find_successor scenario_ring 200 none = some (some 10, 2) := by
  constructor <;> rfl

/-- C4 counterexample: the claim asserts every data operation on an empty ring
returns an explicit "no node" result without raising; but `insert` on the
empty ring dereferences the `None` node returned by `find_successor`
(`node.btree.insert` with `node = None` raises `AttributeError`), modelled
here by the `none` result. -/
theorem c4_counterexample :
    insert { m := 160, nodes := [] } 5 [("title", "x")] none = none := rfl

/-- C4 amended: on a ring with no nodes the routing call `find_successor`
returns the explicit "no node", zero-hop result `(None, 0)` without raising,
but each data operation (`insert`, `lookup`, `delete_key`,
`update_movie_field`) dereferences that absent node and raises
(`AttributeError`, modelled by `none`). -/
theorem c4_empty_ring (r : ChordRing) (hr : r.nodes = [])
    (sha1_int : String → Nat) (key : Nat) (record : Rec)
    (title field value : String) (s : Option Nat) :
    find_successor r key s = some (none, 0) ∧
    insert r key record s = none ∧
    lookup sha1_int r title s = none ∧
    delete_key r key s = none ∧
    update_movie_field sha1_int r title field value s = none := by
  have hfs : ∀ k s', find_successor r k s' = some (none, 0) := by
    intro k s'
    unfold find_successor
    rw [hr]
  refine ⟨hfs key s, ?_, ?_, ?_, ?_⟩
  · unfold insert; rw [hfs]
  · unfold lookup; simp only [hfs]
  · unfold delete_key; rw [hfs]
  · unfold update_movie_field; simp only [hfs]

/-- Witness for C4 amended, on the literal empty ring with m = 160. -/
theorem c4_empty_ring_witness :
    find_successor { m := 160, nodes := [] } 7 none = some (none, 0) ∧
    insert { m := 160, nodes := [] } 7 [] none = none ∧
    lookup (fun _ => 7) { m := 160, nodes := [] } "t" none = none ∧
    delete_key { m := 160, nodes := [] } 7 none = none ∧
    update_movie_field (fun _ => 7) { m := 160, nodes := [] } "t" "f" "v" none = none :=
  c4_empty_ring { m := 160, nodes := [] } rfl (fun _ => 7) 7 [] "t" "f" "v" none

/-- Helper: `leave_node` on an id absent from the membership list fails with
zero metrics and an unchanged state. -/
theorem leave_node_of_not_mem (r : ChordRing) (node_id : Nat)
    (s : Option Nat) (h : node_id ∉ ids r) :
    leave_node r node_id s = some (r, false, 0, 0) := by
  unfold leave_node
  have hfind : r.nodes.find? (fun n => n.node_id == node_id) = none := by
    rw [List.find?_eq_none]
    intro x hx hbeq
    exact h (List.mem_map.mpr ⟨x, hx, eq_of_beq hbeq⟩)
  rw [hfind]

/-- C10: `leave_node` on a node id absent from the membership list returns
`(False, 0, 0)` and leaves the entire ring state (membership, links, finger
tables, storage) unchanged. -/
theorem c10_leave_missing_id_unchanged (r : ChordRing) (node_id : Nat)
    (s : Option Nat) (h : node_id ∉ ids r) :
    leave_node r node_id s = some (r, false, 0, 0) :=
  leave_node_of_not_mem r node_id s h

/-- Witness for C10: removing the absent id 99 from the two-member ring
changes nothing. -/
theorem c10_leave_missing_id_unchanged_witness :
    leave_node pair_ring 99 none = some (pair_ring, false, 0, 0) :=
  c10_leave_missing_id_unchanged pair_ring 99 none (by decide)

/-- C6 counterexample: the claim asserts `update_movie_field` on a key with no
stored record reports failure with ZERO hops; on the two-member ring it
reports failure with the lookup's hop count 1. -/
theorem c6_counterexample :
    update_movie_field (fun _ => 15) pair_ring "t" "f" "v" none =
      some (pair_ring, false, 1) := rfl

/-- C6 amended: `update_movie_field` on a key with no stored record returns
the failure flag together with the hop count of the lookup that located the
key's owner (not necessarily zero), and `leave_node` on an absent node id
returns the failure flag with zero-cost metrics; neither raises. -/
theorem c6_not_found_results :
    (∀ (sha1_int : String → Nat) (r : ChordRing) (title field value : String)
        (s : Option Nat) (nid hops : Nat) (node : ChordNode),
      find_successor r (chord_hash sha1_int title r.m) s = some (some nid, hops) →
      getNode r nid = some node →
      search_key node.btree (chord_hash sha1_int title r.m) = [] →
      update_movie_field sha1_int r title field value s = some (r, false, hops)) ∧
    (∀ (r : ChordRing) (node_id : Nat) (s : Option Nat),
      node_id ∉ ids r → leave_node r node_id s = some (r, false, 0, 0)) := by
  constructor
  · intro sha1_int r title field value s nid hops node hfs hget hsearch
    unfold update_movie_field
    simp only [hfs, hget, hsearch, List.isEmpty_nil, if_true]
  · intro r node_id s h
    exact leave_node_of_not_mem r node_id s h

/-- Witness for C6 amended: on the two-member ring, updating a field of the
unstored key 15 fails with the lookup's hop count, and removing the absent id
99 fails with zero metrics. -/
theorem c6_not_found_results_witness :
    update_movie_field (fun _ => 15) pair_ring "t" "f" "v" none =
        some (pair_ring, false, 1) ∧
    leave_node pair_ring 99 none = some (pair_ring, false, 0, 0) := by
  constructor
  · exact c6_not_found_results.1 (fun _ => 15) pair_ring "t" "f" "v" none 20 1
      { node_id := 20, btree := [], successor := some 10, predecessor := some 10,
        finger := List.replicate 8 (some 10) }
      (by rfl) (by rfl) (by rfl)
  · exact c6_not_found_results.2 pair_ring 99 none (by decide)


/-! ## Reference-resolution helper lemmas -/

/-- A member id resolves through `getNode` to a member carrying that id. -/
theorem getNode_of_mem_ids {r : ChordRing} {sid : Nat} (h : sid ∈ ids r) :
    ∃ nd, getNode r sid = some nd ∧ nd ∈ r.nodes ∧ nd.node_id = sid := by
  obtain ⟨n, hn, hid⟩ := List.mem_map.mp h
  have hsome : (r.nodes.find? (fun n => n.node_id == sid)).isSome := by
    rw [List.find?_isSome]
    exact ⟨n, hn, by simp [hid]⟩
  obtain ⟨nd, hnd⟩ := Option.isSome_iff_exists.mp hsome
  have hp := (List.find?_eq_some.mp hnd).1
  exact ⟨nd, hnd, List.mem_of_find?_eq_some hnd, eq_of_beq hp⟩

/-- What `getNode` returns is a member carrying the requested id. -/
theorem getNode_spec {r : ChordRing} {sid : Nat} {nd : ChordNode}
    (h : getNode r sid = some nd) : nd ∈ r.nodes ∧ nd.node_id = sid := by
  have hp := (List.find?_eq_some.mp h).1
  exact ⟨List.mem_of_find?_eq_some h, eq_of_beq hp⟩

/-- Unpacking `refs_ok` at a member. -/
theorem refs_ok_spec {r : ChordRing} (h : refs_ok r = true) {n : ChordNode}
    (hn : n ∈ r.nodes) :
    (∃ s, n.successor = some s ∧ s ∈ ids r) ∧
    (∀ i fid, n.finger.get? i = some (some fid) → fid ∈ ids r) := by
  have hall := (List.all_eq_true.mp h) n hn
  rw [Bool.and_eq_true] at hall
  constructor
  · cases hsucc : n.successor with
    | none => rw [hsucc] at hall; exact absurd hall.1 (by simp)
    | some s =>
      rw [hsucc] at hall
      exact ⟨s, rfl, List.elem_iff.mp hall.1⟩
  · intro i fid hfid
    have hmem : (some fid) ∈ n.finger := List.get?_mem hfid
    have := (List.all_eq_true.mp hall.2) (some fid) hmem
    exact List.elem_iff.mp this

/-- `closest_preceding_finger` returns the node's own id or a finger id that
passed the arc test. -/
theorem cpf_scan_cases (node : ChordNode) (key : Nat) :
    ∀ k, cpf_scan node key k = node.node_id ∨
      ∃ i fid, node.finger.get? i = some (some fid) ∧
        in_interval fid node.node_id key = true ∧ cpf_scan node key k = fid := by
  intro k
  induction k with
  | zero => exact Or.inl rfl
  | succ n ih =>
    rw [cpf_scan]
    cases hfin : node.finger.get? n with
    | none => exact ih
    | some fo =>
      cases fo with
      | none => exact ih
      | some fid =>
        by_cases hin : in_interval fid node.node_id key = true
        · exact Or.inr ⟨n, fid, hfin, hin, by simp [hin]⟩
        · simpa [hin] using ih

/-- Under closed references, the routing-step candidate of a member resolved
against a member successor id is again a member id. -/
theorem next_hop_id_mem {r : ChordRing} (href : refs_ok r = true)
    {curr : ChordNode} (hcurr : curr ∈ r.nodes) {sid : Nat}
    (hsid : sid ∈ ids r) (key : Nat) :
    next_hop_id r.m curr sid key ∈ ids r := by
  unfold next_hop_id closest_preceding_finger
  rcases cpf_scan_cases curr key r.m with hself | ⟨i, fid, hfin, _, hres⟩
  · rw [hself]
    simpa using hsid
  · rw [hres]
    by_cases hb : fid = curr.node_id
    · simp [hb, hsid]
    · simp only [beq_iff_eq, if_neg hb]
      exact (refs_ok_spec href hcurr).2 i fid hfin

/-- On a non-empty ring the linear scan returns a member id. -/
theorem find_successor_linear_isSome {r : ChordRing} (h : r.nodes ≠ [])
    (key : Nat) :
    ∃ lid, find_successor_linear r key = some lid ∧ lid ∈ ids r := by
  unfold find_successor_linear
  cases hf : r.nodes.find? (fun node => key ≤ node.node_id) with
  | some node =>
    exact ⟨node.node_id, rfl,
      List.mem_map.mpr ⟨node, List.mem_of_find?_eq_some hf, rfl⟩⟩
  | none =>
    cases hns : r.nodes with
    | nil => exact absurd hns h
    | cons n0 rest =>
      exact ⟨n0.node_id, by simp [hns], by rw [ids, hns]; exact List.mem_map.mpr ⟨n0, by simp, rfl⟩⟩

/-- Totality and hop bound of the routing loop: starting from any member with
enough fuel and hop budget, the loop returns a member id within
`maxSteps + 1` hops. -/
theorem fs_loop_total {r : ChordRing} (href : refs_ok r = true)
    (hne : r.nodes ≠ []) (key maxSteps : Nat) :
    ∀ fuel (curr : ChordNode) (hops : Nat), curr ∈ r.nodes →
      maxSteps + 2 ≤ fuel + hops → hops ≤ maxSteps →
      ∃ nid h, fs_loop r key maxSteps fuel curr hops = some (nid, h) ∧
        nid ∈ ids r ∧ h ≤ maxSteps + 1 := by
  intro fuel
  induction fuel with
  | zero => intro curr hops _ hfuel hhops; omega
  | succ n ih =>
    intro curr hops hcurr hfuel hhops
    rw [fs_loop]
    by_cases hkey : key = curr.node_id
    · refine ⟨curr.node_id, hops, by simp [hkey], ?_, by omega⟩
      exact List.mem_map.mpr ⟨curr, hcurr, rfl⟩
    · obtain ⟨⟨sid, hsucc, hsid⟩, _⟩ := refs_ok_spec href hcurr
      obtain ⟨succ, hget, hsmem, hsideq⟩ := getNode_of_mem_ids hsid
      simp only [beq_iff_eq, if_neg hkey, hsucc, hget]
      by_cases hin : in_interval key curr.node_id succ.node_id = true
      · refine ⟨succ.node_id, hops + 1, by simp [hin], ?_, by omega⟩
        exact List.mem_map.mpr ⟨succ, hsmem, rfl⟩
      · simp only [hin, Bool.false_eq_true, if_false]
        by_cases hstep : maxSteps < hops + 1
        · obtain ⟨lid, hlid, hlmem⟩ := find_successor_linear_isSome hne key
          rw [hlid]
          exact ⟨lid, hops + 1, by simp [hstep], hlmem, by omega⟩
        · have hmem2 := next_hop_id_mem href hcurr hsid key
          obtain ⟨nxt, hgetn, hnmem, _⟩ := getNode_of_mem_ids hmem2
          simp only [if_neg hstep, hgetn]
          exact ih nxt (hops + 1) hnmem (by omega) (by omega)

/-- C3: on any non-empty ring whose references stay within the ring — with
arbitrary, possibly corrupted, finger-table contents — and for every key and
start node, `find_successor` terminates with a member node and an accumulated
hop count of at most `max 4 (4 * |nodes|) + 1`; and whenever an iteration
must advance (neither the exact-id match nor the successor-arc test fires)
while the incremented hop count exceeds `max 4 (4 * |nodes|)`, the loop
abandons finger routing and returns the result of the linear scan of the
membership list, still reporting the accumulated hop count. -/
theorem c3_termination_bound (r : ChordRing) (key : Nat) (start : Option Nat)
    (hne : r.nodes ≠ []) (href : refs_ok r = true)
    (hst : start_ok r start = true) :
    (∃ nid hops, find_successor r key start = some (some nid, hops) ∧
      nid ∈ ids r ∧ hops ≤ max 4 (r.nodes.length * 4) + 1) ∧
    (∀ fuel (curr : ChordNode) (hops sid : Nat) (succ : ChordNode),
      key ≠ curr.node_id → curr.successor = some sid →
      getNode r sid = some succ →
      in_interval key curr.node_id succ.node_id = false →
      max 4 (r.nodes.length * 4) < hops + 1 →
      fs_loop r key (max 4 (r.nodes.length * 4)) (fuel + 1) curr hops =
        (find_successor_linear r key).map (fun lid => (lid, hops + 1))) := by
  constructor
  · obtain ⟨n0, rest, hns⟩ : ∃ n0 rest, r.nodes = n0 :: rest := by
      cases h : r.nodes with
      | nil => exact absurd h hne
      | cons a l => exact ⟨a, l, rfl⟩
    have hmax : ∀ s : ChordNode, s ∈ r.nodes →
        ∃ nid hops,
          fs_loop r key (max 4 (r.nodes.length * 4))
              (max 4 (r.nodes.length * 4) + 2) s 0 = some (nid, hops) ∧
          nid ∈ ids r ∧ hops ≤ max 4 (r.nodes.length * 4) + 1 := by
      intro s hs
      exact fs_loop_total href hne key (max 4 (r.nodes.length * 4))
        (max 4 (r.nodes.length * 4) + 2) s 0 hs (by omega) (by omega)
    cases hstart : start with
    | none =>
      have h0 : n0 ∈ r.nodes := by rw [hns]; simp
      obtain ⟨nid, hops, hres, hmem, hbound⟩ := hmax n0 h0
      refine ⟨nid, hops, ?_, hmem, hbound⟩
      unfold find_successor
      rw [hns] at hres ⊢
      dsimp only
      rw [hres]
    | some sid =>
      rw [hstart] at hst
      have hsid : sid ∈ ids r := List.elem_iff.mp hst
      obtain ⟨s, hget, hsmem, _⟩ := getNode_of_mem_ids hsid
      obtain ⟨nid, hops, hres, hmem, hbound⟩ := hmax s hsmem
      refine ⟨nid, hops, ?_, hmem, hbound⟩
      unfold find_successor
      rw [hns] at hres ⊢
      dsimp only
      rw [hget]
      dsimp only
      rw [hres]
  · intro fuel curr hops sid succ hkey hsucc hget hin hstep
    rw [fs_loop]
    simp only [beq_iff_eq, if_neg hkey, hsucc, hget, hin, Bool.false_eq_true,
      if_false, if_pos hstep]
    obtain ⟨lid, hlid, _⟩ := find_successor_linear_isSome hne key
    rw [hlid]
    rfl

/-- Witness for C3 on the two-member ring, key 200 (a wrapping key), routing
from the default start node. -/
theorem c3_termination_bound_witness :
    pair_ring.nodes ≠ [] ∧ refs_ok pair_ring = true ∧
    start_ok pair_ring none = true ∧
    (∃ nid hops, find_successor pair_ring 200 none = some (some nid, hops) ∧
      nid ∈ ids pair_ring ∧ hops ≤ max 4 (pair_ring.nodes.length * 4) + 1) := by
  refine ⟨by decide, by decide, by decide, ?_⟩
  exact (c3_termination_bound pair_ring 200 none (by decide) (by decide)
    (by decide)).1

/-! ## Links and sortedness lemmas -/

/-- `update_links` keeps the membership length. -/
theorem length_update_links (ns : List ChordNode) :
    (update_links ns).length = ns.length := by
  simp [update_links]

/-- Entry `j` of `update_links ns`: the original node with its successor and
predecessor set to the ids of its circular neighbours. -/
theorem update_links_get (ns : List ChordNode) (j : Nat) (h : j < ns.length)
    (h2 : j < (update_links ns).length) :
    (update_links ns).get ⟨j, h2⟩ =
      { ns.get ⟨j, h⟩ with
        successor := some (ns.get ⟨(j + 1) % ns.length,
          Nat.mod_lt _ (Nat.zero_lt_of_lt h)⟩).node_id,
        predecessor := some (ns.get ⟨(j + ns.length - 1) % ns.length,
          Nat.mod_lt _ (Nat.zero_lt_of_lt h)⟩).node_id } := by
  simp [update_links, List.get_eq_getElem, List.getElem_map, List.getElem_finRange]

/-- `update_links` keeps the list of node ids. -/
theorem ids_update_links (ns : List ChordNode) :
    (update_links ns).map (fun n => n.node_id) = ns.map (fun n => n.node_id) := by
  apply List.ext_getElem
  · simp [length_update_links]
  · intro j h1 h2
    have hj : j < ns.length := by simpa using h2
    have hj2 : j < (update_links ns).length := by simpa [length_update_links] using hj
    simp only [List.getElem_map]
    show ((update_links ns).get ⟨j, hj2⟩).node_id = (ns.get ⟨j, hj⟩).node_id
    rw [update_links_get ns j hj hj2]

/-- Entry `j` of `update_links ns`, `getElem?` form. -/
theorem update_links_getElem (ns : List ChordNode) (j : Nat) (h : j < ns.length) :
    (update_links ns)[j]? = some
      { ns.get ⟨j, h⟩ with
        successor := some (ns.get ⟨(j + 1) % ns.length,
          Nat.mod_lt _ (Nat.zero_lt_of_lt h)⟩).node_id,
        predecessor := some (ns.get ⟨(j + ns.length - 1) % ns.length,
          Nat.mod_lt _ (Nat.zero_lt_of_lt h)⟩).node_id } := by
  have h2 : j < (update_links ns).length :=
    Nat.lt_of_lt_of_eq h (length_update_links ns).symm
  rw [List.getElem?_eq_getElem h2]
  congr 1
  show (update_links ns).get ⟨j, h2⟩ = _
  rw [update_links_get ns j h h2]

/-- `update_links` establishes the link invariant. -/
theorem linksOK_update_links (m : Nat) (ns : List ChordNode) :
    LinksOK { m := m, nodes := update_links ns } := by
  intro j hj
  have hlen : (update_links ns).length = ns.length := length_update_links ns
  have hj1 : j < ns.length := Nat.lt_of_lt_of_eq hj hlen
  have hpos : 0 < ns.length := Nat.zero_lt_of_lt hj1
  show ((update_links ns)[j]?.map (fun n => n.successor) =
      ((update_links ns)[(j + 1) % (update_links ns).length]?).map (fun n => some n.node_id)) ∧
    ((update_links ns)[j]?.map (fun n => n.predecessor) =
      ((update_links ns)[(j + (update_links ns).length - 1) % (update_links ns).length]?).map (fun n => some n.node_id))
  rw [hlen]
  rw [update_links_getElem ns j hj1,
    update_links_getElem ns ((j + 1) % ns.length) (Nat.mod_lt _ hpos),
    update_links_getElem ns ((j + ns.length - 1) % ns.length) (Nat.mod_lt _ hpos)]
  exact ⟨rfl, rfl⟩

/-- `set_node` commutes with any projection its update function preserves. -/
theorem map_set_node {γ : Type} (g : ChordNode → γ) (ns : List ChordNode)
    (id : Nat) (f : ChordNode → ChordNode) (hf : ∀ n, g (f n) = g n) :
    (set_node ns id f).map g = ns.map g := by
  induction ns with
  | nil => rfl
  | cons n rest ih =>
    rw [set_node]
    split
    · simp [hf]
    · simp [ih]

/-- `fix_all_fingers` commutes with any projection `init_finger_table`
preserves (it only rewrites finger tables). -/
theorem map_fix_all_fingers {γ : Type} (g : ChordNode → γ) (r : ChordRing)
    (hg : ∀ n, g (init_finger_table r n) = g n) :
    (fix_all_fingers r).nodes.map g = r.nodes.map g := by
  show (r.nodes.map (init_finger_table r)).map g = r.nodes.map g
  rw [List.map_map]
  exact List.map_congr_left (fun n _ => hg n)

/-- Transfer of strict sortedness along equal id lists. -/
theorem sortedIds_of_map_eq {ns1 ns2 : List ChordNode}
    (h : ns1.map (fun n => n.node_id) = ns2.map (fun n => n.node_id)) :
    SortedIds ns1 → SortedIds ns2 := by
  intro hs
  have h1 : List.Pairwise (fun a b : Nat => a < b) (ns1.map (fun n => n.node_id)) :=
    List.pairwise_map.mpr hs
  rw [h] at h1
  exact (List.pairwise_map.mp h1).imp (fun hab => hab)

/-- Transfer of weak sortedness along equal id lists. -/
theorem sortedIdsLe_of_map_eq {ns1 ns2 : List ChordNode}
    (h : ns1.map (fun n => n.node_id) = ns2.map (fun n => n.node_id)) :
    SortedIdsLe ns1 → SortedIdsLe ns2 := by
  intro hs
  have h1 : List.Pairwise (fun a b : Nat => a ≤ b) (ns1.map (fun n => n.node_id)) :=
    List.pairwise_map.mpr hs
  rw [h] at h1
  exact (List.pairwise_map.mp h1).imp (fun hab => hab)

/-- Equal link shapes give equal id lists. -/
theorem ids_of_linkShape_eq {ns1 ns2 : List ChordNode}
    (h : ns1.map linkShape = ns2.map linkShape) :
    ns1.map (fun n => n.node_id) = ns2.map (fun n => n.node_id) := by
  have := congrArg (List.map Prod.fst) h
  simpa [List.map_map, Function.comp, linkShape] using this

/-- Transfer of the link invariant along equal link shapes (the invariant
does not mention `m`, storage or fingers). -/
theorem linksOK_of_linkShape_eq {u v : Nat} {ns1 ns2 : List ChordNode}
    (h : ns1.map linkShape = ns2.map linkShape)
    (hl : LinksOK { m := u, nodes := ns1 }) :
    LinksOK { m := v, nodes := ns2 } := by
  have hlen : ns1.length = ns2.length := by simpa using congrArg List.length h
  have hopt : ∀ t : Nat, (ns1[t]?).map linkShape = (ns2[t]?).map linkShape := by
    intro t
    rw [← List.getElem?_map, ← List.getElem?_map, h]
  have hsucc : ∀ t : Nat,
      (ns1[t]?).map (fun n => n.successor) = (ns2[t]?).map (fun n => n.successor) := by
    intro t
    have ht := hopt t
    cases h1 : ns1[t]? <;> cases h2 : ns2[t]? <;> rw [h1, h2] at ht <;>
      simp_all [linkShape, Prod.ext_iff]
  have hpred : ∀ t : Nat,
      (ns1[t]?).map (fun n => n.predecessor) = (ns2[t]?).map (fun n => n.predecessor) := by
    intro t
    have ht := hopt t
    cases h1 : ns1[t]? <;> cases h2 : ns2[t]? <;> rw [h1, h2] at ht <;>
      simp_all [linkShape, Prod.ext_iff]
  have hid : ∀ t : Nat,
      (ns1[t]?).map (fun n => some n.node_id) = (ns2[t]?).map (fun n => some n.node_id) := by
    intro t
    have ht := hopt t
    cases h1 : ns1[t]? <;> cases h2 : ns2[t]? <;> rw [h1, h2] at ht <;>
      simp_all [linkShape, Prod.ext_iff]
  intro j hj
  have hj1 : j < ns1.length := Nat.lt_of_lt_of_eq hj hlen.symm
  obtain ⟨hs, hp⟩ := hl j hj1
  constructor
  · show (ns2[j]?).map (fun n => n.successor) =
      (ns2[(j + 1) % ns2.length]?).map (fun n => some n.node_id)
    rw [← hsucc j, ← hid ((j + 1) % ns2.length)]
    rw [show (j + 1) % ns2.length = (j + 1) % ns1.length by rw [hlen]]
    exact hs
  · show (ns2[j]?).map (fun n => n.predecessor) =
      (ns2[(j + ns2.length - 1) % ns2.length]?).map (fun n => some n.node_id)
    rw [← hpred j, ← hid ((j + ns2.length - 1) % ns2.length)]
    rw [show (j + ns2.length - 1) % ns2.length = (j + ns1.length - 1) % ns1.length by rw [hlen]]
    exact hp

/-! ## Redistribute fold lemmas -/

/-- The redistribute fold propagates an exception. -/
theorem foldl_redistribute_none (new_id succ_id pred_id : Nat) :
    ∀ items : List (Nat × Rec),
      items.foldl (redistribute_step new_id succ_id pred_id) none = none := by
  intro items
  induction items with
  | nil => rfl
  | cons x xs ih => rw [List.foldl_cons]; exact ih

/-- Fold-invariant principle for the redistribute loop. -/
theorem foldl_redistribute_invariant (new_id succ_id pred_id : Nat)
    (P : ChordRing → Prop)
    (hstep : ∀ r1 a b item r2 a2 b2,
      redistribute_step new_id succ_id pred_id (some (r1, a, b)) item =
        some (r2, a2, b2) → P r1 → P r2) :
    ∀ (items : List (Nat × Rec)) (r0 : ChordRing) (a0 b0 : Nat), P r0 →
      ∀ r1 a1 b1,
        items.foldl (redistribute_step new_id succ_id pred_id)
          (some (r0, a0, b0)) = some (r1, a1, b1) → P r1 := by
  intro items
  induction items with
  | nil =>
    intro r0 a0 b0 hp r1 a1 b1 hf
    simp only [List.foldl_nil] at hf
    obtain ⟨h1, _⟩ := Prod.mk.injEq .. ▸ Option.some.inj hf
    exact h1 ▸ hp
  | cons x xs ih =>
    intro r0 a0 b0 hp r1 a1 b1 hf
    rw [List.foldl_cons] at hf
    cases hstep1 : redistribute_step new_id succ_id pred_id (some (r0, a0, b0)) x with
    | none =>
      rw [hstep1, foldl_redistribute_none] at hf
      exact absurd hf (by simp)
    | some acc =>
      obtain ⟨r2, a2, b2⟩ := acc
      rw [hstep1] at hf
      exact ih r2 a2 b2 (hstep r0 a0 b0 x r2 a2 b2 hstep1 hp) r1 a1 b1 hf

/-- A single redistribute step only rewrites storage: link shapes and the
ring width are preserved. -/
theorem redistribute_step_linkShape {new_id succ_id pred_id : Nat}
    {r1 : ChordRing} {a b : Nat} {item : Nat × Rec} {r2 : ChordRing}
    {a2 b2 : Nat}
    (h : redistribute_step new_id succ_id pred_id (some (r1, a, b)) item =
      some (r2, a2, b2)) :
    r2.nodes.map linkShape = r1.nodes.map linkShape ∧ r2.m = r1.m := by
  simp only [redistribute_step] at h
  split at h
  · split at h
    · simp only [Option.some.injEq, Prod.mk.injEq] at h
      obtain ⟨hr, -⟩ := h
      subst hr
      refine ⟨?_, rfl⟩
      show (set_node (set_node r1.nodes new_id _) succ_id _).map linkShape =
        r1.nodes.map linkShape
      rw [map_set_node linkShape _ succ_id
          (fun n => { n with btree := btree_delete n.btree item.1 }) (fun n => rfl),
        map_set_node linkShape _ new_id
          (fun n => { n with btree := btree_insert n.btree item.2 item.1 }) (fun n => rfl)]
    · exact absurd h (by simp)
  · simp only [Option.some.injEq, Prod.mk.injEq] at h
    obtain ⟨hr, -⟩ := h
    subst hr
    exact ⟨rfl, rfl⟩

/-- `_redistribute_keys` only moves storage: link shapes and the ring width
are preserved. -/
theorem redistribute_keys_linkShape {r : ChordRing} {nid : Nat}
    {r2 : ChordRing} {a b : Nat}
    (h : redistribute_keys r nid = some (r2, a, b)) :
    r2.nodes.map linkShape = r.nodes.map linkShape ∧ r2.m = r.m := by
  unfold redistribute_keys at h
  split at h
  · exact absurd h (by simp)
  · split at h
    · split at h
      · exact absurd h (by simp)
      · exact foldl_redistribute_invariant _ _ _
          (fun rr => rr.nodes.map linkShape = r.nodes.map linkShape ∧ rr.m = r.m)
          (fun r1 a1 b1 item rr a2 b2 hs hp =>
            ⟨(redistribute_step_linkShape hs).1.trans hp.1,
             (redistribute_step_linkShape hs).2.trans hp.2⟩)
          _ r 0 0 ⟨rfl, rfl⟩ r2 a b h
    · exact absurd h (by simp)

/-! ## C8: membership invariant after join and leave -/

/-- `fix_all_fingers` preserves weak sortedness. -/
theorem sortedIdsLe_fix (rr : ChordRing) (h : SortedIdsLe rr.nodes) :
    SortedIdsLe (fix_all_fingers rr).nodes :=
  sortedIdsLe_of_map_eq
    (map_fix_all_fingers (fun n => n.node_id) rr (fun _ => rfl)).symm h

/-- `fix_all_fingers` preserves strict sortedness. -/
theorem sortedIds_fix (rr : ChordRing) (h : SortedIds rr.nodes) :
    SortedIds (fix_all_fingers rr).nodes :=
  sortedIds_of_map_eq
    (map_fix_all_fingers (fun n => n.node_id) rr (fun _ => rfl)).symm h

/-- `fix_all_fingers` preserves the link invariant. -/
theorem linksOK_fix (rr : ChordRing) (h : LinksOK rr) :
    LinksOK (fix_all_fingers rr) :=
  linksOK_of_linkShape_eq (u := rr.m) (v := rr.m)
    (map_fix_all_fingers linkShape rr (fun _ => rfl)).symm h

/-- Sortedness and links survive `fix_all_fingers` over a storage-reshaped
ring. -/
theorem fix_shape_inherits {rbase r2 : ChordRing}
    (hshape : r2.nodes.map linkShape = rbase.nodes.map linkShape)
    (hs : SortedIdsLe rbase.nodes) (hl : LinksOK rbase) :
    SortedIdsLe (fix_all_fingers r2).nodes ∧ LinksOK (fix_all_fingers r2) := by
  have hs2 : SortedIdsLe r2.nodes :=
    sortedIdsLe_of_map_eq (ids_of_linkShape_eq hshape).symm hs
  have hl2 : LinksOK r2 :=
    linksOK_of_linkShape_eq (u := rbase.m) (v := r2.m) hshape.symm hl
  exact ⟨sortedIdsLe_fix r2 hs2, linksOK_fix r2 hl2⟩

/-- The state built by the main path of `leave_node` (storage moved to the
successor, node erased, links recomputed, fingers rebuilt) is sorted and
correctly linked. -/
theorem leave_core_invariant (r : ChordRing) (nid succ_id : Nat)
    (f : ChordNode → ChordNode) (hf : ∀ n, (f n).node_id = n.node_id)
    (hsort : SortedIdsLe r.nodes) :
    SortedIdsLe (fix_all_fingers (ChordRing.mk r.m (update_links ((set_node r.nodes succ_id f).eraseP (fun n => n.node_id == nid))))).nodes ∧
    LinksOK (fix_all_fingers (ChordRing.mk r.m (update_links ((set_node r.nodes succ_id f).eraseP (fun n => n.node_id == nid))))) := by
  have hs1 : SortedIdsLe (set_node r.nodes succ_id f) :=
    sortedIdsLe_of_map_eq
      (map_set_node (fun n => n.node_id) r.nodes succ_id f hf).symm hsort
  have hs2 : SortedIdsLe ((set_node r.nodes succ_id f).eraseP (fun n => n.node_id == nid)) :=
    List.Pairwise.sublist (List.eraseP_sublist _) hs1
  have hs3 : SortedIdsLe (update_links ((set_node r.nodes succ_id f).eraseP (fun n => n.node_id == nid))) :=
    sortedIdsLe_of_map_eq (ids_update_links _).symm hs2
  exact ⟨sortedIdsLe_fix _ hs3, linksOK_fix _ (linksOK_update_links r.m _)⟩

/-- C8: immediately after every membership change the membership list is
sorted by node id and every member's successor and predecessor equal its
circular neighbours by index: unconditionally after any completing
`join_node`, and, assuming the invariant held before the call, after any
completing `leave_node` (a failing leave changes nothing). On the empty ring
the link condition is vacuous. -/
theorem c8_membership_links :
    (∀ (r r' : ChordRing) (nid : Nat) (s : Option Nat) (h mv : Nat),
      join_node r nid s = some (r', h, mv) →
      SortedIdsLe r'.nodes ∧ LinksOK r') ∧
    (∀ (r r' : ChordRing) (nid : Nat) (s : Option Nat) (ok : Bool) (h mv : Nat),
      SortedIdsLe r.nodes → LinksOK r →
      leave_node r nid s = some (r', ok, h, mv) →
      SortedIdsLe r'.nodes ∧ LinksOK r') := by
  constructor
  · intro r r' nid s h mv hj
    simp only [join_node] at hj
    split at hj
    · exact absurd hj (by simp)
    · have hsorted0 : SortedIdsLe ((r.nodes ++ [mk_node nid r.m]).insertionSort node_le) :=
        List.sorted_insertionSort node_le (r.nodes ++ [mk_node nid r.m])
      have hsorted1 : SortedIdsLe (update_links ((r.nodes ++ [mk_node nid r.m]).insertionSort node_le)) :=
        sortedIdsLe_of_map_eq (ids_update_links _).symm hsorted0
      have hlinks1 : LinksOK (ChordRing.mk r.m (update_links ((r.nodes ++ [mk_node nid r.m]).insertionSort node_le))) :=
        linksOK_update_links r.m _
      split at hj
      · split at hj
        · exact absurd hj (by simp)
        · rename_i heq
          simp only [Option.some.injEq, Prod.mk.injEq] at hj
          obtain ⟨hr, -⟩ := hj
          subst hr
          exact fix_shape_inherits (redistribute_keys_linkShape heq).1 hsorted1 hlinks1
      · simp only [Option.some.injEq, Prod.mk.injEq] at hj
        obtain ⟨hr, -⟩ := hj
        subst hr
        exact ⟨sortedIdsLe_fix _ hsorted1, linksOK_fix _ hlinks1⟩
  · intro r r' nid s ok h mv hsort hlinks hl
    simp only [leave_node] at hl
    split at hl
    · simp only [Option.some.injEq, Prod.mk.injEq] at hl
      obtain ⟨hr, -⟩ := hl
      subst hr
      exact ⟨hsort, hlinks⟩
    · rename_i node hfind
      split at hl
      · rename_i hlen1
        simp only [Option.some.injEq, Prod.mk.injEq] at hl
        obtain ⟨hr, -⟩ := hl
        subst hr
        have hlen : r.nodes.length = 1 := by simpa using hlen1
        obtain ⟨x, hx⟩ := List.length_eq_one.mp hlen
        have hpx : (x.node_id == nid) = true := by
          rw [hx] at hfind
          rcases List.find?_cons_eq_some.mp hfind with ⟨hpa, -⟩ | ⟨-, hrest⟩
          · exact hpa
          · exact absurd hrest (by simp)
        constructor
        · exact List.Pairwise.sublist (List.eraseP_sublist r.nodes) hsort
        · intro j hj
          rw [hx] at hj
          simp only [List.eraseP_cons, hpx, cond_true] at hj
          exact absurd hj (by simp)
      · split at hl
        · exact absurd hl (by simp)
        · split at hl
          · exact absurd hl (by simp)
          · simp only [Option.some.injEq, Prod.mk.injEq] at hl
            obtain ⟨hr, -⟩ := hl
            subst hr
            exact leave_core_invariant r nid _ _ (fun _ => rfl) hsort

/-- Witness for C8: joining node 10 into the empty m = 8 ring yields a sorted,
correctly linked ring, and a failing leave on the two-member ring keeps its
sorted, correctly linked state. -/
theorem c8_membership_links_witness :
    (SortedIdsLe singleton_ring.nodes ∧ LinksOK singleton_ring) ∧
    (SortedIdsLe pair_ring.nodes ∧ LinksOK pair_ring) := by
  constructor
  · exact c8_membership_links.1 { m := 8, nodes := [] } singleton_ring 10 none 0 0 (by decide)
  · exact c8_membership_links.2 pair_ring pair_ring 99 none false 0 0
      (by unfold SortedIdsLe; decide) (by unfold LinksOK; decide) (by decide)

/-! ## Routing soundness under the ring invariant -/

/-- Strictly sorted membership has distinct ids. -/
theorem nodup_ids_of_sortedIds {ns : List ChordNode} (hs : SortedIds ns) :
    (ns.map (fun n => n.node_id)).Nodup := by
  have := List.pairwise_map.mpr (hs.imp (fun hab => hab))
  exact List.Pairwise.imp (fun hab => Nat.ne_of_lt hab) this

/-- Under distinct ids, `find?` by a member's id returns that member. -/
theorem find?_id_at_member (v : ChordNode) :
    ∀ ns : List ChordNode, (ns.map (fun n => n.node_id)).Nodup → v ∈ ns →
      ns.find? (fun n => n.node_id == v.node_id) = some v := by
  intro ns
  induction ns with
  | nil => intro _ hv; exact absurd hv (by simp)
  | cons n rest ih =>
    intro hnd hv
    rw [List.map_cons, List.nodup_cons] at hnd
    rcases List.mem_cons.mp hv with hveq | hvrest
    · subst hveq
      exact List.find?_cons_of_pos _ (by simp)
    · have hne : ¬(n.node_id == v.node_id) = true := by
        simp only [beq_iff_eq]
        intro he
        exact hnd.1 (he ▸ List.mem_map.mpr ⟨v, hvrest, rfl⟩)
      have hne2 : (n.node_id == v.node_id) = false := by simpa using hne
      rw [List.find?_cons, hne2]
      exact ih hnd.2 hvrest

/-- Under distinct ids, a member resolves to itself. -/
theorem getNode_at_member {r : ChordRing} (hs : SortedIds r.nodes)
    {v : ChordNode} (hv : v ∈ r.nodes) : getNode r v.node_id = some v :=
  find?_id_at_member v r.nodes (nodup_ids_of_sortedIds hs) hv

/-- The linear scan at a member id returns exactly that id. -/
theorem linear_at_member {m : Nat} {ns : List ChordNode} (hs : SortedIds ns)
    {k : Nat} (hk : k ∈ ns.map (fun n => n.node_id)) :
    find_successor_linear { m := m, nodes := ns } k = some k := by
  induction ns with
  | nil => exact absurd hk (by simp)
  | cons n rest ih =>
    show (match (n :: rest).find? (fun node => k ≤ node.node_id) with
      | some node => some node.node_id
      | none => (n :: rest).head?.map (fun nd => nd.node_id)) = some k
    by_cases hle : k ≤ n.node_id
    · rw [List.find?_cons_of_pos _ (by simpa using hle)]
      rcases List.mem_map.mp hk with ⟨w, hw, hwid⟩
      rcases List.mem_cons.mp hw with hweq | hwrest
      · simp [← hwid, hweq]
      · exfalso
        have h1 : n.node_id < w.node_id := List.rel_of_pairwise_cons hs hwrest
        have h2 : w.node_id = k := hwid
        omega
    · rw [List.find?_cons_of_neg _ (by simpa using hle)]
      have hkrest : k ∈ rest.map (fun n => n.node_id) := by
        rcases List.mem_map.mp hk with ⟨w, hw, hwid⟩
        rcases List.mem_cons.mp hw with hweq | hwrest
        · exfalso
          have h2 : w.node_id = k := hwid
          rw [hweq] at h2
          omega
        · exact List.mem_map.mpr ⟨w, hwrest, hwid⟩
      have ihres := ih hs.of_cons hkrest
      revert ihres
      show (match rest.find? (fun node => k ≤ node.node_id) with
        | some node => some node.node_id
        | none => rest.head?.map (fun nd => nd.node_id)) = some k →
        (match rest.find? (fun node => k ≤ node.node_id) with
        | some node => some node.node_id
        | none => (n :: rest).head?.map (fun nd => nd.node_id)) = some k
      cases hf : rest.find? (fun node => k ≤ node.node_id) with
      | some w => exact fun h => h
      | none =>
        intro hres
        exfalso
        obtain ⟨w, hw, hwid⟩ := List.mem_map.mp hkrest
        have h1 := List.find?_eq_none.mp hf w hw
        have h2 : w.node_id = k := hwid
        simp only [decide_eq_true_eq] at h1
        omega

/-- The first index satisfying a predicate determines `find?`. -/
theorem find?_eq_get_first {α : Type} {ns : List α} {p : α → Bool} :
    ∀ (t : Nat) (ht : t < ns.length),
      (∀ j (hj : j < ns.length), j < t → p (ns.get ⟨j, hj⟩) = false) →
      p (ns.get ⟨t, ht⟩) = true → ns.find? p = some (ns.get ⟨t, ht⟩) := by
  induction ns with
  | nil => intro t ht _ _; rw [List.length_nil] at ht; omega
  | cons n rest ih =>
    intro t ht hbefore hat
    cases t with
    | zero => exact List.find?_cons_of_pos _ hat
    | succ t0 =>
      have hn : p n = false := hbefore 0 (by simp) (by omega)
      rw [List.find?_cons_of_neg _ (by simp [hn])]
      exact ih t0 (by simpa using ht)
        (fun j hj hjt => hbefore (j + 1) (by simpa using hj) (by omega)) hat

/-- Monotonicity of ids along a strictly sorted membership list. -/
theorem sortedIds_get_le {ns : List ChordNode} (hs : SortedIds ns)
    (i j : Fin ns.length) (hij : i.val ≤ j.val) :
    (ns.get i).node_id ≤ (ns.get j).node_id := by
  rcases Nat.lt_or_ge i.val j.val with hlt | hge
  · exact Nat.le_of_lt (List.pairwise_iff_get.mp hs i j hlt)
  · have : i = j := Fin.ext (by omega)
    rw [this]

/-- Under distinct ids, a member carrying the id of an indexed entry is that
entry. -/
theorem member_eq_get_of_id {ns : List ChordNode} (hs : SortedIds ns)
    {w : ChordNode} (hw : w ∈ ns) (j : Fin ns.length)
    (hid : w.node_id = (ns.get j).node_id) : w = ns.get j := by
  obtain ⟨i, hi⟩ := List.mem_iff_get.mp hw
  subst hi
  have hnd := nodup_ids_of_sortedIds hs
  have : i = j := by
    by_contra hne
    rcases Nat.lt_or_ge i.val j.val with hlt | hge
    · exact absurd hid (Nat.ne_of_lt (List.pairwise_iff_get.mp hs i j hlt))
    · have hlt2 : j.val < i.val := by
        rcases Nat.lt_or_ge j.val i.val with h2 | h2
        · exact h2
        · exact absurd (Fin.ext (by omega)) hne
      exact absurd hid.symm (Nat.ne_of_lt (List.pairwise_iff_get.mp hs j i hlt2))
  rw [this]

/-- If `key` lies in the arc `(curr, curr.successor]` of a sorted, correctly
linked ring, the linear scan assigns `key` to that successor. -/
theorem linear_of_arc {r : ChordRing} (hs : SortedIds r.nodes) (hl : LinksOK r)
    {curr : ChordNode} (hcurr : curr ∈ r.nodes) {sid : Nat}
    (hsucc : curr.successor = some sid) {succ : ChordNode}
    (hget : getNode r sid = some succ) {k : Nat}
    (hin : in_interval k curr.node_id succ.node_id = true) :
    find_successor_linear r k = some succ.node_id := by
  obtain ⟨i, hi⟩ := List.mem_iff_get.mp hcurr
  have hn : 0 < r.nodes.length := i.pos
  have hidx : (i.val + 1) % r.nodes.length < r.nodes.length := Nat.mod_lt _ hn
  have hlink := (hl i.val i.isLt).1
  rw [List.getElem?_eq_getElem i.isLt, List.getElem?_eq_getElem hidx] at hlink
  simp only [Option.map_some'] at hlink
  have h1 := Option.some.inj hlink
  have hcs : curr.successor =
      some (r.nodes.get ⟨(i.val + 1) % r.nodes.length, hidx⟩).node_id := by
    rw [← hi]
    rw [List.get_eq_getElem, List.get_eq_getElem]
    exact h1
  rw [hsucc] at hcs
  have hsid : sid = (r.nodes.get ⟨(i.val + 1) % r.nodes.length, hidx⟩).node_id :=
    Option.some.inj hcs
  have hsuccmem := (getNode_spec hget).1
  have hsuccid := (getNode_spec hget).2
  have hsucceq : succ = r.nodes.get ⟨(i.val + 1) % r.nodes.length, hidx⟩ :=
    member_eq_get_of_id hs hsuccmem _ (by rw [hsuccid, hsid])
  have hlinear : find_successor_linear r k =
      (match r.nodes.find? (fun node => k ≤ node.node_id) with
        | some node => some node.node_id
        | none => r.nodes.head?.map (fun nd => nd.node_id)) := rfl
  by_cases hone : r.nodes.length = 1
  · have hi0 : i.val = 0 := by omega
    have hsc : succ = curr := by
      rw [hsucceq, ← hi]
      congr 1
      refine Fin.ext (show (i.val + 1) % r.nodes.length = i.val from ?_)
      omega
    subst hsc
    rw [hlinear]
    by_cases hle : k ≤ succ.node_id
    · rw [find?_eq_get_first i.val i.isLt (fun j hj hji => by omega)
        (by rw [hi]; simpa using hle)]
      rw [hi]
    · have hfn : r.nodes.find? (fun node => k ≤ node.node_id) = none := by
        rw [List.find?_eq_none]
        intro x hx
        obtain ⟨t, ht⟩ := List.mem_iff_get.mp hx
        have htv : t = i := Fin.ext (by omega)
        rw [htv, hi] at ht
        subst ht
        simpa using hle
      rw [hfn]
      have hg0 : r.nodes[0] = succ := by
        rw [← hi, List.get_eq_getElem]
        congr 1
        omega
      rw [List.head?_eq_getElem?, List.getElem?_eq_getElem hn, hg0,
        Option.map_some']
  · by_cases hlast : i.val + 1 < r.nodes.length
    · have hmod : (i.val + 1) % r.nodes.length = i.val + 1 := Nat.mod_eq_of_lt hlast
      have hlt : curr.node_id < succ.node_id := by
        rw [hsucceq, ← hi]
        apply List.pairwise_iff_get.mp hs
        show i.val < (i.val + 1) % r.nodes.length
        rw [hmod]
        omega
      rw [in_interval, if_pos hlt] at hin
      have harc : curr.node_id < k ∧ k ≤ succ.node_id := of_decide_eq_true hin
      rw [hlinear]
      rw [find?_eq_get_first ((i.val + 1) % r.nodes.length) hidx ?bef ?hat]
      · rw [← hsucceq]
      case bef =>
        intro j hj hji
        rw [hmod] at hji
        show decide (k ≤ (r.nodes.get ⟨j, hj⟩).node_id) = false
        simp only [decide_eq_false_iff_not, Nat.not_le]
        have hji2 : j ≤ i.val := by omega
        have hmono := sortedIds_get_le hs ⟨j, hj⟩ i (by simpa using hji2)
        rw [hi] at hmono
        omega
      case hat =>
        rw [← hsucceq]
        simpa using harc.2
    · have hn2 : 2 ≤ r.nodes.length := by
        rcases Nat.eq_or_lt_of_le hn with h2 | h2
        · omega
        · omega
      have hieq : i.val = r.nodes.length - 1 := by omega
      have hmod : (i.val + 1) % r.nodes.length = 0 := by
        rw [show i.val + 1 = r.nodes.length by omega]
        exact Nat.mod_self _
      have hgt : succ.node_id < curr.node_id := by
        rw [hsucceq, ← hi]
        apply List.pairwise_iff_get.mp hs
        show (i.val + 1) % r.nodes.length < i.val
        rw [hmod]
        omega
      rw [in_interval, if_neg (by omega)] at hin
      have harc : k > curr.node_id ∨ k ≤ succ.node_id := of_decide_eq_true hin
      have hsucc0 : succ = r.nodes.get ⟨0, hn⟩ := by
        rw [hsucceq]
        congr 1
        exact Fin.ext (show (i.val + 1) % r.nodes.length = 0 from hmod)
      rw [hlinear]
      rcases harc with hbig | hsmall
      · have hfn : r.nodes.find? (fun node => k ≤ node.node_id) = none := by
          rw [List.find?_eq_none]
          intro x hx
          obtain ⟨t, ht⟩ := List.mem_iff_get.mp hx
          have hle2 := sortedIds_get_le hs t i (by omega)
          rw [hi] at hle2
          show ¬(decide (k ≤ x.node_id) = true)
          simp only [decide_eq_true_eq]
          rw [← ht]
          omega
        rw [hfn]
        have hg0 : r.nodes[0] = succ := by
          rw [hsucc0, List.get_eq_getElem]
        rw [List.head?_eq_getElem?, List.getElem?_eq_getElem hn, hg0,
          Option.map_some']
      · rw [find?_eq_get_first 0 hn (fun j hj hj0 => by omega) ?hat0]
        · rw [← hsucc0]
        case hat0 =>
          rw [← hsucc0]
          simpa using hsmall

/-- Any result the routing loop returns on a sorted, correctly linked ring is
the linear-scan owner of the key (every exit path is correct regardless of
finger contents). -/
theorem fs_loop_sound {r : ChordRing} (hs : SortedIds r.nodes) (hl : LinksOK r)
    (key maxSteps : Nat) :
    ∀ fuel (curr : ChordNode) (hops nid h : Nat), curr ∈ r.nodes →
      fs_loop r key maxSteps fuel curr hops = some (nid, h) →
      find_successor_linear r key = some nid := by
  intro fuel
  induction fuel with
  | zero =>
    intro curr hops nid h _ heq
    exact absurd heq (by rw [fs_loop]; simp)
  | succ n ih =>
    intro curr hops nid h hcurr heq
    rw [fs_loop] at heq
    by_cases hkey : (key == curr.node_id) = true
    · rw [if_pos hkey] at heq
      simp only [Option.some.injEq, Prod.mk.injEq] at heq
      obtain ⟨h1, -⟩ := heq
      have hk : key = curr.node_id := by simpa using hkey
      have hmemk : key ∈ r.nodes.map (fun nd => nd.node_id) :=
        List.mem_map.mpr ⟨curr, hcurr, hk.symm⟩
      have hfin := linear_at_member (m := r.m) hs hmemk
      rw [← h1, ← hk]
      exact hfin
    · rw [if_neg hkey] at heq
      cases hsucc : curr.successor with
      | none => rw [hsucc] at heq; exact absurd heq (by simp)
      | some sid =>
        rw [hsucc] at heq
        cases hget : getNode r sid with
        | none =>
          simp only [hget] at heq
          exact absurd heq (by simp)
        | some succ =>
          simp only [hget] at heq
          by_cases hin : in_interval key curr.node_id succ.node_id = true
          · rw [if_pos hin] at heq
            simp only [Option.some.injEq, Prod.mk.injEq] at heq
            obtain ⟨h1, -⟩ := heq
            rw [← h1]
            exact linear_of_arc hs hl hcurr hsucc hget hin
          · simp only [hin, Bool.false_eq_true, if_false] at heq
            by_cases hstep : hops + 1 > maxSteps
            · rw [if_pos hstep] at heq
              cases hlid : find_successor_linear r key with
              | none => rw [hlid] at heq; exact absurd heq (by simp)
              | some lid =>
                rw [hlid] at heq
                simp only [Option.some.injEq, Prod.mk.injEq] at heq
                rw [heq.1]
            · rw [if_neg hstep] at heq
              cases hnxt : getNode r (next_hop_id r.m curr sid key) with
              | none => rw [hnxt] at heq; exact absurd heq (by simp)
              | some nxt =>
                rw [hnxt] at heq
                exact ih nxt (hops + 1) nid h (getNode_spec hnxt).1 heq

/-- Any successful `find_successor` result on a sorted, correctly linked ring
is the linear-scan owner of the key. -/
theorem find_successor_sound {r : ChordRing} (hs : SortedIds r.nodes)
    (hl : LinksOK r) {key : Nat} {s : Option Nat} {nid h : Nat}
    (hres : find_successor r key s = some (some nid, h)) :
    find_successor_linear r key = some nid := by
  cases hns : r.nodes with
  | nil =>
    unfold find_successor at hres
    rw [hns] at hres
    simp at hres
  | cons n0 rest =>
    unfold find_successor at hres
    rw [hns] at hres
    dsimp only at hres
    have main : ∀ st : ChordNode, st ∈ r.nodes →
        (match fs_loop r key (max 4 ((n0 :: rest).length * 4))
            (max 4 ((n0 :: rest).length * 4) + 2) st 0 with
          | some (nid2, hops) => some (some nid2, hops)
          | none => (none : Option (Option Nat × Nat))) = some (some nid, h) →
        find_successor_linear r key = some nid := by
      intro st hstmem hrun
      cases hf : fs_loop r key (max 4 ((n0 :: rest).length * 4))
          (max 4 ((n0 :: rest).length * 4) + 2) st 0 with
      | none => rw [hf] at hrun; exact absurd hrun (by simp)
      | some p =>
        obtain ⟨nid0, h0⟩ := p
        rw [hf] at hrun
        simp only [Option.some.injEq, Prod.mk.injEq] at hrun
        obtain ⟨hnid, -⟩ := hrun
        subst hnid
        exact fs_loop_sound hs hl key _ _ st 0 nid0 h0 hstmem hf
    cases hstart : s with
    | none =>
      rw [hstart] at hres
      dsimp only at hres
      exact main n0 (by rw [hns]; exact List.mem_cons_self n0 rest) hres
    | some sid =>
      rw [hstart] at hres
      dsimp only at hres
      cases hg : getNode r sid with
      | none => rw [hg] at hres; exact absurd hres (by simp)
      | some st =>
        rw [hg] at hres
        exact main st (getNode_spec hg).1 hres

/-- The structural invariant implies closed references. -/
theorem refs_ok_of_inv {r : ChordRing} (hl : LinksOK r) (hf : FingersOK r) :
    refs_ok r = true := by
  rw [refs_ok, List.all_eq_true]
  intro n hn
  rw [Bool.and_eq_true]
  constructor
  · obtain ⟨i, hi⟩ := List.mem_iff_get.mp hn
    have hidx : (i.val + 1) % r.nodes.length < r.nodes.length := Nat.mod_lt _ i.pos
    have hlink := (hl i.val i.isLt).1
    rw [List.getElem?_eq_getElem i.isLt, List.getElem?_eq_getElem hidx] at hlink
    simp only [Option.map_some'] at hlink
    have h1 := Option.some.inj hlink
    have hns : n.successor = some (r.nodes[(i.val + 1) % r.nodes.length].node_id) := by
      rw [← hi, List.get_eq_getElem]
      exact h1
    rw [hns]
    show (ids r).contains (r.nodes[(i.val + 1) % r.nodes.length].node_id) = true
    exact List.elem_iff.mpr
      (List.mem_map.mpr ⟨r.nodes[(i.val + 1) % r.nodes.length],
        List.getElem_mem hidx, rfl⟩)
  · rw [List.all_eq_true]
    intro fo hfo
    cases fo with
    | none => rfl
    | some fid =>
      obtain ⟨t, ht⟩ := List.mem_iff_get?.mp hfo
      exact List.elem_iff.mpr (hf n hn t fid ht)

/-- On a non-empty ring satisfying the full invariant, `find_successor`
returns the unique linear-scan owner of the key, from any valid start. -/
theorem find_successor_owner {r : ChordRing} (hs : SortedIds r.nodes)
    (hl : LinksOK r) (hf : FingersOK r) (hne : r.nodes ≠ []) (key : Nat)
    {s : Option Nat} (hst : start_ok r s = true) :
    ∃ nid hops, find_successor r key s = some (some nid, hops) ∧
      find_successor_linear r key = some nid := by
  have href : refs_ok r = true := refs_ok_of_inv hl hf
  obtain ⟨n0, rest, hns⟩ : ∃ n0 rest, r.nodes = n0 :: rest := by
    cases h : r.nodes with
    | nil => exact absurd h hne
    | cons a l => exact ⟨a, l, rfl⟩
  have hmax : ∀ st : ChordNode, st ∈ r.nodes →
      ∃ nid hops,
        fs_loop r key (max 4 (r.nodes.length * 4))
            (max 4 (r.nodes.length * 4) + 2) st 0 = some (nid, hops) := by
    intro st hmem
    obtain ⟨nid, hops, hloop, -, -⟩ :=
      fs_loop_total href hne key (max 4 (r.nodes.length * 4))
        (max 4 (r.nodes.length * 4) + 2) st 0 hmem (by omega) (by omega)
    exact ⟨nid, hops, hloop⟩
  cases hstart : s with
  | none =>
    have h0 : n0 ∈ r.nodes := by rw [hns]; exact List.mem_cons_self n0 rest
    obtain ⟨nid, hops, hloop⟩ := hmax n0 h0
    have hres : find_successor r key none = some (some nid, hops) := by
      unfold find_successor
      rw [hns]
      dsimp only
      rw [hns] at hloop
      rw [hloop]
    exact ⟨nid, hops, hres, find_successor_sound hs hl hres⟩
  | some sid =>
    rw [hstart] at hst
    have hsid : sid ∈ ids r := List.elem_iff.mp hst
    obtain ⟨st, hg, hstmem, -⟩ := getNode_of_mem_ids hsid
    obtain ⟨nid, hops, hloop⟩ := hmax st hstmem
    have hres : find_successor r key (some sid) = some (some nid, hops) := by
      unfold find_successor
      rw [hns]
      dsimp only
      rw [hg]
      dsimp only
      rw [hns] at hloop
      rw [hloop]
    exact ⟨nid, hops, hres, find_successor_sound hs hl hres⟩

/-! ## Storage-only changes preserve the invariant -/

/-- Equal data shapes give equal id lists. -/
theorem ids_of_dataShape_eq {ns1 ns2 : List ChordNode}
    (h : ns1.map dataShape = ns2.map dataShape) :
    ns1.map (fun n => n.node_id) = ns2.map (fun n => n.node_id) := by
  have := congrArg (List.map Prod.fst) h
  simpa [List.map_map, Function.comp, dataShape] using this

/-- Equal data shapes give equal link shapes. -/
theorem linkShape_of_dataShape_eq {ns1 ns2 : List ChordNode}
    (h : ns1.map dataShape = ns2.map dataShape) :
    ns1.map linkShape = ns2.map linkShape := by
  have := congrArg (List.map (fun p : Nat × Option Nat × Option Nat × List (Option Nat) => (p.1, p.2.1, p.2.2.1))) h
  simpa [List.map_map, Function.comp, dataShape, linkShape] using this

/-- Transfer of the finger-resolution invariant along equal data shapes. -/
theorem fingersOK_of_dataShape_eq {u v : Nat} {ns1 ns2 : List ChordNode}
    (h : ns1.map dataShape = ns2.map dataShape)
    (hf : FingersOK { m := u, nodes := ns1 }) :
    FingersOK { m := v, nodes := ns2 } := by
  have hlen : ns1.length = ns2.length := by simpa using congrArg List.length h
  have hids := ids_of_dataShape_eq h
  have hshape : ∀ (j : Nat) (hj1 : j < ns1.length) (hj2 : j < ns2.length),
      dataShape (ns1.get ⟨j, hj1⟩) = dataShape (ns2.get ⟨j, hj2⟩) := by
    intro j hj1 hj2
    have h1 : (ns1.map dataShape)[j]? = (ns2.map dataShape)[j]? := by rw [h]
    rw [List.getElem?_map, List.getElem?_map] at h1
    rw [List.getElem?_eq_getElem hj1, List.getElem?_eq_getElem hj2] at h1
    simpa [List.get_eq_getElem] using h1
  intro n hn i fid hfid
  obtain ⟨t, ht⟩ := List.mem_iff_get.mp hn
  have ht2 : t.val < ns1.length := by rw [hlen]; exact t.isLt
  have hsh := hshape t.val ht2 t.isLt
  have hfin : (ns1.get ⟨t.val, ht2⟩).finger = n.finger := by
    have hfe := congrArg (fun p : Nat × Option Nat × Option Nat × List (Option Nat) => p.2.2.2) hsh
    simp only [dataShape] at hfe
    rw [hfe, show ns2.get ⟨t.val, t.isLt⟩ = n from by rw [← ht]]
  have hmem1 : ns1.get ⟨t.val, ht2⟩ ∈ ns1 := List.get_mem ns1 t.val ht2
  have hres := hf (ns1.get ⟨t.val, ht2⟩) hmem1 i fid (by rw [hfin]; exact hfid)
  show fid ∈ ns2.map (fun n => n.node_id)
  rw [← hids]
  exact hres

/-- `find?` for ownership depends only on the id list. -/
theorem find?_le_map_eq :
    ∀ {ns1 ns2 : List ChordNode},
      ns1.map (fun n => n.node_id) = ns2.map (fun n => n.node_id) → ∀ k,
      (ns1.find? (fun n => k ≤ n.node_id)).map (fun n => n.node_id) =
      (ns2.find? (fun n => k ≤ n.node_id)).map (fun n => n.node_id) := by
  intro ns1
  induction ns1 with
  | nil =>
    intro ns2 h k
    cases ns2 with
    | nil => rfl
    | cons b l2 => exact absurd h (by simp)
  | cons a l1 ih =>
    intro ns2 h k
    cases ns2 with
    | nil => exact absurd h (by simp)
    | cons b l2 =>
      simp only [List.map_cons, List.cons.injEq] at h
      obtain ⟨hab, hrest⟩ := h
      by_cases hk : k ≤ a.node_id
      · have hkb : k ≤ b.node_id := hab ▸ hk
        rw [List.find?_cons_of_pos _ (by simpa using hk),
          List.find?_cons_of_pos _ (by simpa using hkb)]
        simp [hab]
      · have hkb : ¬k ≤ b.node_id := by rw [← hab]; exact hk
        rw [List.find?_cons_of_neg _ (by simpa using hk),
          List.find?_cons_of_neg _ (by simpa using hkb)]
        exact ih hrest k

/-- The linear scan depends only on the id list. -/
theorem linear_of_ids_eq {u v : Nat} {ns1 ns2 : List ChordNode}
    (h : ns1.map (fun n => n.node_id) = ns2.map (fun n => n.node_id))
    (k : Nat) :
    find_successor_linear { m := u, nodes := ns1 } k =
      find_successor_linear { m := v, nodes := ns2 } k := by
  have hfind := find?_le_map_eq h k
  have hhead : (ns1.head?).map (fun n => n.node_id) =
      (ns2.head?).map (fun n => n.node_id) := by
    rw [← List.head?_map, ← List.head?_map, h]
  show (match ns1.find? (fun node => k ≤ node.node_id) with
    | some node => some node.node_id
    | none => ns1.head?.map (fun n : ChordNode => n.node_id)) =
    (match ns2.find? (fun node => k ≤ node.node_id) with
    | some node => some node.node_id
    | none => ns2.head?.map (fun n : ChordNode => n.node_id))
  cases h1 : ns1.find? (fun node => k ≤ node.node_id) <;>
    cases h2 : ns2.find? (fun node => k ≤ node.node_id) <;>
    rw [h1, h2] at hfind <;> simp_all

/-- Resolving the rewritten id after `set_node` yields the rewritten node. -/
theorem getNode_set_node_self {u v : Nat} (ns : List ChordNode) (id : Nat)
    (f : ChordNode → ChordNode) (hf : ∀ n, (f n).node_id = n.node_id) :
    getNode { m := u, nodes := set_node ns id f } id =
      (getNode { m := v, nodes := ns } id).map f := by
  show (set_node ns id f).find? (fun n => n.node_id == id) =
    (ns.find? (fun n => n.node_id == id)).map f
  induction ns with
  | nil => rfl
  | cons n rest ih =>
    rw [set_node]
    by_cases hb : (n.node_id == id) = true
    · rw [if_pos hb]
      have hb2 : ((f n).node_id == id) = true := by rw [hf]; exact hb
      rw [List.find?_cons, List.find?_cons, hb, hb2]
      rfl
    · rw [if_neg hb]
      have hb2 : (n.node_id == id) = false := by simpa using hb
      have hb3 : ((f n).node_id == id) = false := by rw [hf]; exact hb2
      rw [List.find?_cons, List.find?_cons, hb2]
      exact ih

/-- A successful owner result forces a non-empty ring. -/
theorem find_successor_nonempty {r : ChordRing} {key : Nat} {s : Option Nat}
    {nid h : Nat} (hres : find_successor r key s = some (some nid, h)) :
    r.nodes ≠ [] := by
  intro hemp
  unfold find_successor at hres
  rw [hemp] at hres
  simp at hres

/-- A record just stored under a key is among the records searched under that
key. -/
theorem search_key_btree_insert (t : List (Nat × Rec)) (record : Rec)
    (key : Nat) : record ∈ search_key (btree_insert t record key) key := by
  unfold search_key btree_insert
  rw [List.filter_append]
  rw [List.map_append]
  apply List.mem_append_right
  simp

/-- C9: round-trip — on any ring with at least one node satisfying the
structural invariant its own maintenance preserves, `insert_title name record`
followed by `lookup name` (started from any valid node) returns a record list
containing the record. -/
theorem c9_round_trip (sha1_int : String → Nat) (r : ChordRing)
    (hs : SortedIds r.nodes) (hl : LinksOK r) (hf : FingersOK r)
    (name : String) (record : Rec) (s1 s2 : Option Nat)
    (hst2 : start_ok r s2 = true) (r' : ChordRing) (h1 : Nat)
    (hins : insert_title sha1_int r name record s1 = some (r', h1)) :
    ∃ recs h2, lookup sha1_int r' name s2 = some (recs, h2) ∧ record ∈ recs := by
  unfold insert_title insert at hins
  split at hins
  · rename_i nid hops heq
    simp only [Option.some.injEq, Prod.mk.injEq] at hins
    obtain ⟨hr, -⟩ := hins
    subst hr
    have hlin : find_successor_linear r (chord_hash sha1_int name r.m) = some nid :=
      find_successor_sound hs hl heq
    have hne : r.nodes ≠ [] := find_successor_nonempty heq
    have hnidmem : nid ∈ ids r := by
      obtain ⟨lid, hlid, hlidmem⟩ :=
        find_successor_linear_isSome hne (chord_hash sha1_int name r.m)
      rw [hlin] at hlid
      exact (Option.some.inj hlid) ▸ hlidmem
    obtain ⟨w, hw, hwmem, hwid⟩ := getNode_of_mem_ids hnidmem
    have hshape : (set_node r.nodes nid
        (fun n => { n with btree := btree_insert n.btree record (chord_hash sha1_int name r.m) })).map dataShape =
        r.nodes.map dataShape :=
      map_set_node dataShape _ nid _ (fun n => rfl)
    have hids := ids_of_dataShape_eq hshape
    have hs2 : SortedIds (set_node r.nodes nid
        (fun n => { n with btree := btree_insert n.btree record (chord_hash sha1_int name r.m) })) :=
      sortedIds_of_map_eq hids.symm hs
    have hl2 : LinksOK (ChordRing.mk r.m (set_node r.nodes nid
        (fun n => { n with btree := btree_insert n.btree record (chord_hash sha1_int name r.m) }))) :=
      linksOK_of_linkShape_eq (u := r.m) (linkShape_of_dataShape_eq hshape).symm hl
    have hf2 : FingersOK (ChordRing.mk r.m (set_node r.nodes nid
        (fun n => { n with btree := btree_insert n.btree record (chord_hash sha1_int name r.m) }))) :=
      fingersOK_of_dataShape_eq (u := r.m) hshape.symm hf
    have hne2 : (set_node r.nodes nid
        (fun n => { n with btree := btree_insert n.btree record (chord_hash sha1_int name r.m) })) ≠ [] := by
      intro he
      rw [he] at hids
      exact hne (List.map_eq_nil_iff.mp hids.symm)
    have hst2b : start_ok (ChordRing.mk r.m (set_node r.nodes nid
        (fun n => { n with btree := btree_insert n.btree record (chord_hash sha1_int name r.m) }))) s2 = true := by
      cases hs2c : s2 with
      | none => rfl
      | some sid2 =>
        show ((set_node r.nodes nid _).map (fun n => n.node_id)).contains sid2 = true
        rw [hids]
        rw [hs2c] at hst2
        exact hst2
    obtain ⟨nid2, h2, hfind2, hlin2⟩ :=
      find_successor_owner hs2 hl2 hf2 hne2 (chord_hash sha1_int name r.m) hst2b
    have hlineq := linear_of_ids_eq (u := r.m) (v := r.m) hids
      (chord_hash sha1_int name r.m)
    have hnid2 : nid2 = nid := by
      rw [hlineq, hlin] at hlin2
      exact (Option.some.inj hlin2).symm
    rw [hnid2] at hfind2
    have hget2 : getNode (ChordRing.mk r.m (set_node r.nodes nid
        (fun n => { n with btree := btree_insert n.btree record (chord_hash sha1_int name r.m) }))) nid =
        some { w with btree := btree_insert w.btree record (chord_hash sha1_int name r.m) } := by
      rw [getNode_set_node_self (u := r.m) (v := r.m) r.nodes nid
        (fun n => { n with btree := btree_insert n.btree record (chord_hash sha1_int name r.m) })
        (fun n => rfl), hw]
      rfl
    refine ⟨search_key (btree_insert w.btree record (chord_hash sha1_int name r.m))
      (chord_hash sha1_int name r.m), h2, ?_, ?_⟩
    · unfold lookup
      dsimp only
      simp only [hfind2, hget2]
    · exact search_key_btree_insert w.btree record (chord_hash sha1_int name r.m)
  · exact absurd hins (by simp)
  · exact absurd hins (by simp)

/-- Witness for C9 on the one-member ring: inserting a record under a title
hashing to 15 and looking it up again returns it. -/
theorem c9_round_trip_witness :
    ∃ recs h2,
      lookup (fun _ => 15)
        { m := 8, nodes := [{ singleton_node with btree := [(15, [("y", "1")])] }] }
        "t" none = some (recs, h2) ∧ ([("y", "1")] : Rec) ∈ recs := by
  have hfOK : FingersOK singleton_ring := by
    intro n hn i fid hfid
    have hn2 : n = singleton_node := by
      rcases List.mem_cons.mp hn with h | h
      · exact h
      · exact absurd h (by simp)
    subst hn2
    have hmem : some fid ∈ singleton_node.finger := List.get?_mem hfid
    have heq10 := List.eq_of_mem_replicate
      (show some fid ∈ List.replicate 8 (some 10) from hmem)
    have hfid10 : fid = 10 := Option.some.inj heq10
    rw [hfid10]
    decide
  exact c9_round_trip (fun _ => 15) singleton_ring (by unfold SortedIds; decide)
    (by unfold LinksOK; decide) hfOK "t" [("y", "1")] none none (by decide)
    { m := 8, nodes := [{ singleton_node with btree := [(15, [("y", "1")])] }] }
    1 (by decide)


/-! ## Utility lemmas for the ownership invariant -/

/-- Moving a whole item list by repeated storage inserts appends it. -/
theorem foldl_btree_insert :
    ∀ (items t : List (Nat × Rec)),
      items.foldl (fun t2 item => btree_insert t2 item.2 item.1) t = t ++ items := by
  intro items
  induction items with
  | nil => intro t; simp
  | cons item rest ih =>
    intro t
    rw [List.foldl_cons, ih]
    show (btree_insert t item.2 item.1) ++ rest = _
    rw [btree_insert, List.append_assoc]
    rfl

/-- A linear-scan result is a member id. -/
theorem linear_mem {r : ChordRing} {k lid : Nat}
    (h : find_successor_linear r k = some lid) : lid ∈ ids r := by
  unfold find_successor_linear at h
  split at h
  · rename_i node hfind
    exact (Option.some.inj h) ▸
      List.mem_map.mpr ⟨node, List.mem_of_find?_eq_some hfind, rfl⟩
  · cases hh : r.nodes.head? with
    | none => rw [hh] at h; exact absurd h (by simp)
    | some n0 =>
      rw [hh] at h
      simp only [Option.map_some'] at h
      exact (Option.some.inj h) ▸
        List.mem_map.mpr ⟨n0, List.mem_of_mem_head? hh, rfl⟩

/-- Closed references transfer along equal data shapes. -/
theorem refs_ok_of_dataShape_eq {r1 r2 : ChordRing}
    (h : r1.nodes.map dataShape = r2.nodes.map dataShape)
    (hr : refs_ok r1 = true) : refs_ok r2 = true := by
  have hids := ids_of_dataShape_eq h
  rw [refs_ok, List.all_eq_true]
  intro n hn
  have hsh : dataShape n ∈ r1.nodes.map dataShape := by
    rw [h]
    exact List.mem_map.mpr ⟨n, hn, rfl⟩
  obtain ⟨n1, hn1, hshape⟩ := List.mem_map.mp hsh
  have hall := (List.all_eq_true.mp hr) n1 hn1
  rw [Bool.and_eq_true] at hall
  have hsu : n1.successor = n.successor :=
    congrArg (fun p : Nat × Option Nat × Option Nat × List (Option Nat) => p.2.1) hshape
  have hfin : n1.finger = n.finger :=
    congrArg (fun p : Nat × Option Nat × Option Nat × List (Option Nat) => p.2.2.2) hshape
  rw [Bool.and_eq_true]
  constructor
  · cases hsucc : n.successor with
    | none =>
      rw [hsucc] at hsu
      rw [hsu] at hall
      exact absurd hall.1 (by simp)
    | some sid =>
      rw [hsucc] at hsu
      rw [hsu] at hall
      show (ids r2).contains sid = true
      have hm : sid ∈ ids r1 := List.elem_iff.mp hall.1
      rw [show ids r1 = r1.nodes.map (fun n => n.node_id) from rfl, hids] at hm
      exact List.elem_iff.mpr hm
  · rw [List.all_eq_true]
    intro fo hfo
    rw [← hfin] at hfo
    have hres := (List.all_eq_true.mp hall.2) fo hfo
    cases fo with
    | none => rfl
    | some fid =>
      have hmem : fid ∈ ids r1 := List.elem_iff.mp hres
      rw [show ids r1 = r1.nodes.map (fun n => n.node_id) from rfl, hids] at hmem
      exact List.elem_iff.mpr hmem

/-- Storage ownership transfers along equal stores and an equal ownership
oracle. -/
theorem storageOK_transfer {r1 r2 : ChordRing}
    (hstore : r1.nodes.map storeShape = r2.nodes.map storeShape)
    (hlin : ∀ k, find_successor_linear r1 k = find_successor_linear r2 k)
    (h : StorageOK r1) : StorageOK r2 := by
  intro v hv p hp
  have hsh : storeShape v ∈ r1.nodes.map storeShape := by
    rw [hstore]
    exact List.mem_map.mpr ⟨v, hv, rfl⟩
  obtain ⟨v1, hv1, hshape⟩ := List.mem_map.mp hsh
  have hid : v1.node_id = v.node_id := congrArg Prod.fst hshape
  have hbt : v1.btree = v.btree := congrArg Prod.snd hshape
  have hrs := h v1 hv1 p (by rw [hbt]; exact hp)
  rw [← hlin p.1, hrs, hid]

/-- Weak sortedness with distinct ids is strict sortedness. -/
theorem sortedIds_of_le_nodup {ns : List ChordNode} (hle : SortedIdsLe ns)
    (hnd : (ns.map (fun n => n.node_id)).Nodup) : SortedIds ns := by
  have hne : List.Pairwise (fun a b : ChordNode => a.node_id ≠ b.node_id) ns :=
    List.pairwise_map.mp hnd
  exact (hle.and hne).imp (fun hab => Nat.lt_of_le_of_ne hab.1 hab.2)

/-- Membership in a `set_node` rewrite, under distinct ids: the member either
is an untouched node (whose id differs from the target) or is the image of a
node carrying the target id. -/
theorem mem_set_node_nodup :
    ∀ {ns : List ChordNode}, (ns.map (fun n => n.node_id)).Nodup →
      ∀ {id : Nat} {f : ChordNode → ChordNode} {v : ChordNode},
        v ∈ set_node ns id f →
        (v ∈ ns ∧ v.node_id ≠ id) ∨ (∃ w, w ∈ ns ∧ w.node_id = id ∧ v = f w) := by
  intro ns
  induction ns with
  | nil => intro _ id f v hv; exact absurd hv (by simp [set_node])
  | cons n rest ih =>
    intro hnd id f v hv
    rw [List.map_cons, List.nodup_cons] at hnd
    rw [set_node] at hv
    by_cases hb : (n.node_id == id) = true
    · rw [if_pos hb] at hv
      have hnid : n.node_id = id := eq_of_beq hb
      rcases List.mem_cons.mp hv with hveq | hvrest
      · exact Or.inr ⟨n, List.mem_cons_self n rest, hnid, hveq⟩
      · refine Or.inl ⟨List.mem_cons_of_mem n hvrest, ?_⟩
        intro hvid
        exact hnd.1 (hnid ▸ hvid ▸ List.mem_map.mpr ⟨v, hvrest, rfl⟩)
    · rw [if_neg hb] at hv
      have hnid : n.node_id ≠ id := by simpa using hb
      rcases List.mem_cons.mp hv with hveq | hvrest
      · exact Or.inl ⟨by rw [hveq]; exact List.mem_cons_self n rest,
          by rw [hveq]; exact hnid⟩
      · rcases ih hnd.2 hvrest with ⟨hm, hne⟩ | ⟨w, hw, hwid, hveq⟩
        · exact Or.inl ⟨List.mem_cons_of_mem n hm, hne⟩
        · exact Or.inr ⟨w, List.mem_cons_of_mem n hw, hwid, hveq⟩

/-- After `fix_all_fingers`, every finger entry resolves to a member. -/
theorem fingersOK_fix_all (r2 : ChordRing) :
    FingersOK (fix_all_fingers r2) := by
  intro n hn i fid hfid
  obtain ⟨w, hw, hweq⟩ := List.mem_map.mp hn
  rw [← hweq] at hfid
  show fid ∈ (fix_all_fingers r2).nodes.map (fun nd => nd.node_id)
  have hids : (fix_all_fingers r2).nodes.map (fun nd => nd.node_id) =
      r2.nodes.map (fun nd => nd.node_id) :=
    map_fix_all_fingers (fun nd => nd.node_id) r2 (fun _ => rfl)
  rw [hids]
  have hfin : (init_finger_table r2 w).finger =
      (List.range r2.m).map (fun j =>
        find_successor_linear r2 ((w.node_id + 2 ^ j) % 2 ^ r2.m)) := rfl
  rw [hfin] at hfid
  rw [List.get?_eq_getElem?] at hfid
  by_cases hi : i < r2.m
  · rw [List.getElem?_map, List.getElem?_range hi] at hfid
    simp only [Option.map_some'] at hfid
    exact linear_mem (Option.some.inj hfid)
  · rw [List.getElem?_eq_none] at hfid
    · exact absurd hfid (by simp)
    · simpa using Nat.le_of_not_lt hi

/-- In the intermediate join state (sorted and relinked but with stale finger
tables), every finger entry still resolves: old members keep their old finger
targets, which remain members, and the fresh node's table is empty. -/
theorem fingersOK_join_mid (r : ChordRing) (hf : FingersOK r) (nid : Nat) :
    FingersOK (ChordRing.mk r.m
      (update_links ((r.nodes ++ [mk_node nid r.m]).insertionSort node_le))) := by
  intro n hn i fid hfid
  obtain ⟨j, hj⟩ := List.mem_iff_get.mp hn
  have hjl : j.val < ((r.nodes ++ [mk_node nid r.m]).insertionSort node_le).length := by
    rw [← length_update_links ((r.nodes ++ [mk_node nid r.m]).insertionSort node_le)]
    exact j.isLt
  have hget := update_links_get ((r.nodes ++ [mk_node nid r.m]).insertionSort node_le)
    j.val hjl j.isLt
  have hfin : n.finger =
      (((r.nodes ++ [mk_node nid r.m]).insertionSort node_le).get ⟨j.val, hjl⟩).finger := by
    rw [← hj]
    show ((update_links _).get ⟨j.val, j.isLt⟩).finger = _
    rw [hget]
  have hwmem : ((r.nodes ++ [mk_node nid r.m]).insertionSort node_le).get ⟨j.val, hjl⟩ ∈
      r.nodes ++ [mk_node nid r.m] :=
    (List.perm_insertionSort node_le (r.nodes ++ [mk_node nid r.m])).mem_iff.mp
      (List.get_mem _ j.val hjl)
  have hids2 : ∀ q : Nat, q ∈ ids r →
      q ∈ (ChordRing.mk r.m (update_links ((r.nodes ++ [mk_node nid r.m]).insertionSort node_le))).nodes.map (fun nd => nd.node_id) := by
    intro q hq
    show q ∈ (update_links _).map (fun nd => nd.node_id)
    rw [ids_update_links]
    have hperm : (((r.nodes ++ [mk_node nid r.m]).insertionSort node_le).map (fun nd => nd.node_id)).Perm
        ((r.nodes ++ [mk_node nid r.m]).map (fun nd => nd.node_id)) :=
      (List.perm_insertionSort node_le _).map _
    rw [List.Perm.mem_iff hperm, List.map_append]
    exact List.mem_append_left _ hq
  rcases List.mem_append.mp hwmem with hold | hnew
  · rw [hfin] at hfid
    exact hids2 fid (hf _ hold i fid hfid)
  · rw [List.mem_singleton] at hnew
    rw [hfin, hnew] at hfid
    rw [show (mk_node nid r.m).finger = List.replicate r.m none from rfl] at hfid
    rw [List.get?_eq_getElem?, List.getElem?_replicate] at hfid
    split at hfid
    · exact absurd (Option.some.inj hfid) (by simp)
    · exact absurd hfid (by simp)


/-! ## The ownership oracle on bare id lists -/

/-- The linear-scan ownership oracle at the level of the bare id list: first
id `≥ k` in list order, else the first id. -/
def lin (L : List Nat) (k : Nat) : Option Nat :=
  match L.find? (fun j => k ≤ j) with
  | some j => some j
  | none => L.head?

/-- `find_successor_linear` is the id-list oracle applied to the ring's id
list. -/
theorem linear_eq_lin (r : ChordRing) (k : Nat) :
    find_successor_linear r k = lin (ids r) k := by
  have hmap : (r.nodes.map (fun n => n.node_id)).find? (fun j => k ≤ j) =
      (r.nodes.find? (fun node => k ≤ node.node_id)).map (fun n => n.node_id) :=
    List.find?_map _ _
  show (match r.nodes.find? (fun node => k ≤ node.node_id) with
    | some node => some node.node_id
    | none => r.nodes.head?.map (fun n : ChordNode => n.node_id)) =
    match (r.nodes.map (fun n : ChordNode => n.node_id)).find? (fun j => k ≤ j) with
    | some j => some j
    | none => (r.nodes.map (fun n : ChordNode => n.node_id)).head?
  rw [hmap, List.head?_map]
  cases hf : r.nodes.find? (fun node => k ≤ node.node_id) with
  | none => rfl
  | some nd => rfl

/-- An oracle result is a member id. -/
theorem lin_mem {L : List Nat} {k j : Nat} (h : lin L k = some j) : j ∈ L := by
  unfold lin at h
  split at h
  · rename_i j2 hf
    have hj := Option.some.inj h
    subst hj
    exact List.mem_of_find?_eq_some hf
  · exact List.mem_of_mem_head? h

/-- In a strictly sorted id list every member is at most the last element. -/
theorem mem_le_getLast? :
    ∀ {l : List Nat}, List.Pairwise (fun a b : Nat => a < b) l →
      ∀ {a : Nat}, a ∈ l → ∀ {z : Nat}, l.getLast? = some z → a ≤ z := by
  intro l
  induction l with
  | nil => intro _ a ha; exact absurd ha (by simp)
  | cons x xs ih =>
    intro hp a ha z hz
    cases xs with
    | nil =>
      have hax : a = x := by simpa using ha
      have hzx : z = x := by
        have := hz
        simp only [List.getLast?_singleton, Option.some.injEq] at this
        omega
      omega
    | cons y ys =>
      rw [List.getLast?_cons_cons] at hz
      rcases List.mem_cons.mp ha with hax | hmem
      · have hzmem : z ∈ y :: ys := List.mem_of_mem_getLast? hz
        have hlt := List.rel_of_pairwise_cons hp hzmem
        omega
      · exact ih hp.of_cons hmem hz

/-- One-point split lemma for the id-list oracle: inserting a fresh id `nid`
between the lower part `l1` and the upper part `l2` of a sorted id list moves
exactly the keys of the circular arc `(pred, nid]` — previously assigned to
the circular successor of the insertion point — onto `nid`, and leaves every
other key's owner unchanged. -/
theorem lin_split (l1 l2 : List Nat) (nid : Nat)
    (h1 : ∀ a ∈ l1, a < nid) (h2 : ∀ b ∈ l2, nid < b)
    (hs : List.Pairwise (fun a b : Nat => a < b) (l1 ++ l2))
    (hne : l1 ++ l2 ≠ []) (k : Nat) :
    (in_interval k ((l1.getLast?).getD ((l2.getLast?).getD nid)) nid = true →
      lin (l1 ++ l2) k = some ((l2.head?).getD ((l1.head?).getD nid)) ∧
      lin (l1 ++ nid :: l2) k = some nid) ∧
    (in_interval k ((l1.getLast?).getD ((l2.getLast?).getD nid)) nid = false →
      lin (l1 ++ l2) k = lin (l1 ++ nid :: l2) k) := by
  have hs1 : List.Pairwise (fun a b : Nat => a < b) l1 := (List.pairwise_append.mp hs).1
  have hs2 : List.Pairwise (fun a b : Nat => a < b) l2 := (List.pairwise_append.mp hs).2.1
  cases l1 with
  | nil =>
    cases l2 with
    | nil => exact absurd rfl hne
    | cons b l2' =>
      cases hz : (b :: l2').getLast? with
      | none => exact absurd (List.getLast?_eq_none_iff.mp hz) (by simp)
      | some z =>
        have hzmem : z ∈ b :: l2' := List.mem_of_mem_getLast? hz
        have hznid : nid < z := h2 z hzmem
        have hbnid : nid < b := h2 b (by simp)
        have hzmax : ∀ x ∈ b :: l2', x ≤ z := fun x hx => mem_le_getLast? hs2 hx hz
        simp only [List.getLast?_nil, Option.getD_none, hz, Option.getD_some,
          List.head?_cons, List.nil_append]
        constructor
        · intro harc
          unfold in_interval at harc
          rw [if_neg (by omega)] at harc
          rcases of_decide_eq_true harc with hk | hk
          · have hf2 : (b :: l2').find? (fun j => k ≤ j) = none := by
              rw [List.find?_eq_none]
              intro x hx
              simp only [decide_eq_true_eq]
              have := hzmax x hx
              omega
            have hfn : (nid :: b :: l2').find? (fun j => k ≤ j) = none := by
              rw [List.find?_eq_none]
              intro x hx
              simp only [decide_eq_true_eq]
              rcases List.mem_cons.mp hx with hxn | hx2
              · omega
              · have := hzmax x hx2
                omega
            constructor
            · unfold lin
              rw [hf2]
              rfl
            · unfold lin
              rw [hfn]
              rfl
          · have hf2 : (b :: l2').find? (fun j => k ≤ j) = some b :=
              List.find?_cons_of_pos _ (by simp only [decide_eq_true_eq]; omega)
            have hfn : (nid :: b :: l2').find? (fun j => k ≤ j) = some nid :=
              List.find?_cons_of_pos _ (by simp only [decide_eq_true_eq]; omega)
            constructor
            · unfold lin
              rw [hf2]
            · unfold lin
              rw [hfn]
        · intro harc
          unfold in_interval at harc
          rw [if_neg (by omega)] at harc
          have hk : ¬(k > z ∨ k ≤ nid) := of_decide_eq_false harc
          push_neg at hk
          have hfsome : ((b :: l2').find? (fun j => k ≤ j)).isSome := by
            rw [List.find?_isSome]
            exact ⟨z, hzmem, by simp only [decide_eq_true_eq]; omega⟩
          cases hf : (b :: l2').find? (fun j => k ≤ j) with
          | none =>
            rw [hf] at hfsome
            exact absurd hfsome (by simp)
          | some jj =>
            have hfn : (nid :: b :: l2').find? (fun j => k ≤ j) = some jj := by
              rw [List.find?_cons_of_neg _ (by simp only [decide_eq_true_eq]; omega)]
              exact hf
            unfold lin
            rw [hf, hfn]
  | cons a l1' =>
    cases hz : (a :: l1').getLast? with
    | none => exact absurd (List.getLast?_eq_none_iff.mp hz) (by simp)
    | some z =>
      have hzmem : z ∈ a :: l1' := List.mem_of_mem_getLast? hz
      have hznid : z < nid := h1 z hzmem
      have hzmax : ∀ x ∈ a :: l1', x ≤ z := fun x hx => mem_le_getLast? hs1 hx hz
      simp only [hz, Option.getD_some]
      cases l2 with
      | nil =>
        simp only [List.head?_nil, Option.getD_none, List.head?_cons, Option.getD_some,
          List.append_nil]
        constructor
        · intro harc
          unfold in_interval at harc
          rw [if_pos (by omega)] at harc
          have hk := of_decide_eq_true harc
          have hf1 : (a :: l1').find? (fun j => k ≤ j) = none := by
            rw [List.find?_eq_none]
            intro x hx
            simp only [decide_eq_true_eq]
            have := hzmax x hx
            omega
          constructor
          · unfold lin
            rw [hf1]
            rfl
          · have hfapp : ((a :: l1') ++ [nid]).find? (fun j => k ≤ j) = some nid := by
              rw [List.find?_append, hf1, Option.none_or]
              exact List.find?_cons_of_pos _ (by simp only [decide_eq_true_eq]; omega)
            unfold lin
            rw [hfapp]
        · intro harc
          unfold in_interval at harc
          rw [if_pos (by omega)] at harc
          have hk : ¬(z < k ∧ k ≤ nid) := of_decide_eq_false harc
          rcases Nat.lt_or_ge z k with hzk | hzk
          · have hknid : nid < k := by omega
            have hf1 : (a :: l1').find? (fun j => k ≤ j) = none := by
              rw [List.find?_eq_none]
              intro x hx
              simp only [decide_eq_true_eq]
              have := hzmax x hx
              omega
            have hfapp : ((a :: l1') ++ [nid]).find? (fun j => k ≤ j) = none := by
              rw [List.find?_append, hf1, Option.none_or]
              rw [List.find?_eq_none]
              intro x hx
              have hxn : x = nid := by simpa using hx
              simp only [decide_eq_true_eq]
              omega
            unfold lin
            rw [hf1, hfapp]
            simp [List.cons_append]
          · have hfsome : ((a :: l1').find? (fun j => k ≤ j)).isSome := by
              rw [List.find?_isSome]
              exact ⟨z, hzmem, by simp only [decide_eq_true_eq]; omega⟩
            cases hf : (a :: l1').find? (fun j => k ≤ j) with
            | none =>
              rw [hf] at hfsome
              exact absurd hfsome (by simp)
            | some jj =>
              have hfapp : ((a :: l1') ++ [nid]).find? (fun j => k ≤ j) = some jj := by
                rw [List.find?_append, hf]
                rfl
              unfold lin
              rw [hf, hfapp]
      | cons b l2' =>
        simp only [List.head?_cons, Option.getD_some]
        have hbnid : nid < b := h2 b (by simp)
        constructor
        · intro harc
          unfold in_interval at harc
          rw [if_pos (by omega)] at harc
          have hk := of_decide_eq_true harc
          have hf1 : (a :: l1').find? (fun j => k ≤ j) = none := by
            rw [List.find?_eq_none]
            intro x hx
            simp only [decide_eq_true_eq]
            have := hzmax x hx
            omega
          constructor
          · have he : ((a :: l1') ++ b :: l2').find? (fun j => k ≤ j) = some b := by
              rw [List.find?_append, hf1, Option.none_or]
              exact List.find?_cons_of_pos _ (by simp only [decide_eq_true_eq]; omega)
            unfold lin
            rw [he]
          · have he : ((a :: l1') ++ nid :: b :: l2').find? (fun j => k ≤ j) = some nid := by
              rw [List.find?_append, hf1, Option.none_or]
              exact List.find?_cons_of_pos _ (by simp only [decide_eq_true_eq]; omega)
            unfold lin
            rw [he]
        · intro harc
          unfold in_interval at harc
          rw [if_pos (by omega)] at harc
          have hk : ¬(z < k ∧ k ≤ nid) := of_decide_eq_false harc
          rcases Nat.lt_or_ge z k with hzk | hzk
          · have hknid : nid < k := by omega
            have hf1 : (a :: l1').find? (fun j => k ≤ j) = none := by
              rw [List.find?_eq_none]
              intro x hx
              simp only [decide_eq_true_eq]
              have := hzmax x hx
              omega
            have hfnid : (nid :: b :: l2').find? (fun j => k ≤ j) =
                (b :: l2').find? (fun j => k ≤ j) :=
              List.find?_cons_of_neg _ (by simp only [decide_eq_true_eq]; omega)
            cases hf2 : (b :: l2').find? (fun j => k ≤ j) with
            | some jj =>
              have e1 : ((a :: l1') ++ b :: l2').find? (fun j => k ≤ j) = some jj := by
                rw [List.find?_append, hf1, Option.none_or]
                exact hf2
              have e2 : ((a :: l1') ++ nid :: b :: l2').find? (fun j => k ≤ j) = some jj := by
                rw [List.find?_append, hf1, Option.none_or, hfnid]
                exact hf2
              unfold lin
              rw [e1, e2]
            | none =>
              have e1 : ((a :: l1') ++ b :: l2').find? (fun j => k ≤ j) = none := by
                rw [List.find?_append, hf1, Option.none_or]
                exact hf2
              have e2 : ((a :: l1') ++ nid :: b :: l2').find? (fun j => k ≤ j) = none := by
                rw [List.find?_append, hf1, Option.none_or, hfnid]
                exact hf2
              unfold lin
              rw [e1, e2]
              simp [List.cons_append]
          · have hfsome : ((a :: l1').find? (fun j => k ≤ j)).isSome := by
              rw [List.find?_isSome]
              exact ⟨z, hzmem, by simp only [decide_eq_true_eq]; omega⟩
            cases hf : (a :: l1').find? (fun j => k ≤ j) with
            | none =>
              rw [hf] at hfsome
              exact absurd hfsome (by simp)
            | some jj =>
              have e1 : ((a :: l1') ++ b :: l2').find? (fun j => k ≤ j) = some jj := by
                rw [List.find?_append, hf]
                rfl
              have e2 : ((a :: l1') ++ nid :: b :: l2').find? (fun j => k ≤ j) = some jj := by
                rw [List.find?_append, hf]
                rfl
              unfold lin
              rw [e1, e2]

/-- With a genuinely two-sided split the circular successor of the middle
element is another element. -/
theorem csucc_ne {A B : List ChordNode} {v : ChordNode}
    (hA : ∀ a ∈ A, a.node_id < v.node_id) (hB : ∀ b ∈ B, v.node_id < b.node_id)
    (hne : A ≠ [] ∨ B ≠ []) : (csucc A B v).node_id ≠ v.node_id := by
  cases B with
  | cons b B' =>
    have := hB b (by simp)
    show b.node_id ≠ v.node_id
    omega
  | nil =>
    cases A with
    | cons a A' =>
      have := hA a (by simp)
      show a.node_id ≠ v.node_id
      omega
    | nil => rcases hne with h | h <;> exact absurd rfl h

/-- With a genuinely two-sided split the circular predecessor of the middle
element is another element. -/
theorem cpred_ne {A B : List ChordNode} {v : ChordNode}
    (hA : ∀ a ∈ A, a.node_id < v.node_id) (hB : ∀ b ∈ B, v.node_id < b.node_id)
    (hne : A ≠ [] ∨ B ≠ []) : (cpred A B v).node_id ≠ v.node_id := by
  cases hA' : A.getLast? with
  | some z =>
    have := hA z (List.mem_of_mem_getLast? hA')
    unfold cpred
    rw [hA']
    simp only [Option.getD_some]
    omega
  | none =>
    have hAnil : A = [] := List.getLast?_eq_none_iff.mp hA'
    cases hB' : B.getLast? with
    | some z =>
      have := hB z (List.mem_of_mem_getLast? hB')
      unfold cpred
      rw [hA', hB']
      simp only [Option.getD_none, Option.getD_some]
      omega
    | none =>
      have hBnil : B = [] := List.getLast?_eq_none_iff.mp hB'
      rcases hne with h | h
      · exact absurd hAnil h
      · exact absurd hBnil h

/-- The id of the circular successor of a split, phrased on the id lists. -/
theorem csucc_id (A B : List ChordNode) (v : ChordNode) :
    (csucc A B v).node_id =
      ((B.map (fun n => n.node_id)).head?).getD
        (((A.map (fun n => n.node_id)).head?).getD v.node_id) := by
  unfold csucc
  rw [List.head?_map, List.head?_map]
  cases B.head? <;> cases A.head? <;> rfl

/-- The id of the circular predecessor of a split, phrased on the id lists. -/
theorem cpred_id (A B : List ChordNode) (v : ChordNode) :
    (cpred A B v).node_id =
      ((A.map (fun n => n.node_id)).getLast?).getD
        (((B.map (fun n => n.node_id)).getLast?).getD v.node_id) := by
  unfold cpred
  rw [List.getLast?_map, List.getLast?_map]
  cases A.getLast? <;> cases B.getLast? <;> rfl


/-! ## Split view of a sorted, linked ring -/

/-- `update_links` commutes with any projection that ignores the link
fields. -/
theorem map_update_links {γ : Type} (g : ChordNode → γ)
    (hg : ∀ (n : ChordNode) (a b : Option Nat),
      g { n with successor := a, predecessor := b } = g n)
    (ns : List ChordNode) : (update_links ns).map g = ns.map g := by
  apply List.ext_getElem
  · simp [length_update_links]
  · intro j h1 h2
    have hj : j < ns.length := by simpa using h2
    have hj2 : j < (update_links ns).length := by
      rw [length_update_links]
      exact hj
    simp only [List.getElem_map]
    show g ((update_links ns).get ⟨j, hj2⟩) = g (ns.get ⟨j, hj⟩)
    rw [update_links_get ns j hj hj2]
    exact hg _ _ _

/-- Every member of a relinked list carries the id and storage of a member of
the original list. -/
theorem mem_update_links_store {ns : List ChordNode} {v : ChordNode}
    (hv : v ∈ update_links ns) :
    ∃ w ∈ ns, v.node_id = w.node_id ∧ v.btree = w.btree := by
  obtain ⟨j, hj⟩ := List.mem_iff_get.mp hv
  have hjl : j.val < ns.length := by
    exact Nat.lt_of_lt_of_eq j.isLt (length_update_links ns)
  refine ⟨ns.get ⟨j.val, hjl⟩, List.get_mem ns j.val hjl, ?_, ?_⟩
  · rw [← hj]
    show ((update_links ns).get ⟨j.val, j.isLt⟩).node_id = _
    rw [update_links_get ns j.val hjl j.isLt]
  · rw [← hj]
    show ((update_links ns).get ⟨j.val, j.isLt⟩).btree = _
    rw [update_links_get ns j.val hjl j.isLt]

/-- Under distinct ids, a member of the list with the node carrying `t` erased
is an original member not carrying `t`. -/
theorem mem_eraseP_of_nodup_ids {t : Nat} :
    ∀ {l : List ChordNode}, (l.map (fun n => n.node_id)).Nodup →
      ∀ {v : ChordNode}, v ∈ l.eraseP (fun n => n.node_id == t) →
      v ∈ l ∧ v.node_id ≠ t := by
  intro l
  induction l with
  | nil => intro _ v hv; exact absurd hv (by simp)
  | cons n rest ih =>
    intro hnd v hv
    rw [List.map_cons, List.nodup_cons] at hnd
    by_cases hb : (n.node_id == t) = true
    · rw [List.eraseP_cons_of_pos (p := fun n : ChordNode => n.node_id == t) hb] at hv
      refine ⟨List.mem_cons_of_mem n hv, ?_⟩
      intro hvt
      have hnt : n.node_id = t := eq_of_beq hb
      exact hnd.1 (by rw [hnt, ← hvt]; exact List.mem_map.mpr ⟨v, hv, rfl⟩)
    · rw [List.eraseP_cons_of_neg (p := fun n : ChordNode => n.node_id == t) hb] at hv
      rcases List.mem_cons.mp hv with hveq | hvrest
      · subst hveq
        exact ⟨List.mem_cons_self v rest, by simpa using hb⟩
      · obtain ⟨hm, hne⟩ := ih hnd.2 hvrest
        exact ⟨List.mem_cons_of_mem n hm, hne⟩

/-- The ids of an id-keyed erasure depend only on the ids. -/
theorem ids_eraseP_of_ids_eq (t : Nat) :
    ∀ {l1 l2 : List ChordNode},
      l1.map (fun n => n.node_id) = l2.map (fun n => n.node_id) →
      (l1.eraseP (fun n => n.node_id == t)).map (fun n => n.node_id) =
      (l2.eraseP (fun n => n.node_id == t)).map (fun n => n.node_id) := by
  intro l1
  induction l1 with
  | nil =>
    intro l2 h
    cases l2 with
    | nil => rfl
    | cons b l2' => exact absurd h (by simp)
  | cons a l1' ih =>
    intro l2 h
    cases l2 with
    | nil => exact absurd h (by simp)
    | cons b l2' =>
      simp only [List.map_cons, List.cons.injEq] at h
      obtain ⟨hab, hrest⟩ := h
      by_cases hp : (a.node_id == t) = true
      · have hpb : (b.node_id == t) = true := by rw [← hab]; exact hp
        rw [List.eraseP_cons_of_pos (p := fun n : ChordNode => n.node_id == t) hp,
          List.eraseP_cons_of_pos (p := fun n : ChordNode => n.node_id == t) hpb]
        exact hrest
      · have hpb : ¬(b.node_id == t) = true := by rw [← hab]; exact hp
        rw [List.eraseP_cons_of_neg (p := fun n : ChordNode => n.node_id == t) hp,
          List.eraseP_cons_of_neg (p := fun n : ChordNode => n.node_id == t) hpb]
        rw [List.map_cons, List.map_cons, hab, ih hrest]

/-- Every member of a sorted, correctly linked ring splits the membership list
around itself, and its link fields name the circular neighbours of that
split. -/
theorem adjacent_split {r : ChordRing} (hs : SortedIds r.nodes)
    (hl : LinksOK r) {v : ChordNode} (hv : v ∈ r.nodes) :
    ∃ A B, r.nodes = A ++ v :: B ∧
      (∀ a ∈ A, a.node_id < v.node_id) ∧
      (∀ b ∈ B, v.node_id < b.node_id) ∧
      v.successor = some (csucc A B v).node_id ∧
      v.predecessor = some (cpred A B v).node_id := by
  obtain ⟨A, B, hsplit⟩ := List.append_of_mem hv
  have hparts := List.pairwise_append.mp
    (show List.Pairwise (fun a b : ChordNode => a.node_id < b.node_id) (A ++ v :: B) from
      hsplit ▸ hs)
  have hA : ∀ a ∈ A, a.node_id < v.node_id :=
    fun a ha => hparts.2.2 a ha v (List.mem_cons_self v B)
  have hB : ∀ b ∈ B, v.node_id < b.node_id :=
    fun b hb => List.rel_of_pairwise_cons hparts.2.1 hb
  have hlen : r.nodes.length = A.length + (B.length + 1) := by
    rw [hsplit]
    simp [List.length_append]
  have ht : A.length < r.nodes.length := by omega
  have hvt : r.nodes[A.length]? = some v := by
    have hlt : A.length < (A ++ v :: B).length := by simp
    rw [hsplit, List.getElem?_eq_getElem hlt,
      List.getElem_append_right (Nat.le_refl A.length)]
    simp
  refine ⟨A, B, hsplit, hA, hB, ?_, ?_⟩
  · obtain ⟨hsucc, -⟩ := hl A.length ht
    rw [hvt] at hsucc
    simp only [Option.map_some'] at hsucc
    cases B with
    | nil =>
      have hmod : (A.length + 1) % r.nodes.length = 0 := by
        rw [hlen]
        simp
      rw [hmod] at hsucc
      cases A with
      | nil =>
        have h0 : r.nodes[0]? = some v := by
          rw [hsplit]
          simp
        rw [h0] at hsucc
        simp only [Option.map_some', Option.some.injEq] at hsucc
        exact hsucc
      | cons a A' =>
        have h0 : r.nodes[0]? = some a := by
          rw [hsplit]
          simp
        rw [h0] at hsucc
        simp only [Option.map_some', Option.some.injEq] at hsucc
        exact hsucc
    | cons b B' =>
      have hmod : (A.length + 1) % r.nodes.length = A.length + 1 :=
        Nat.mod_eq_of_lt (by rw [hlen]; simp only [List.length_cons]; omega)
      rw [hmod] at hsucc
      have h1 : r.nodes[A.length + 1]? = some b := by
        have hlt : A.length + 1 < (A ++ v :: b :: B').length := by simp
        rw [hsplit, List.getElem?_eq_getElem hlt,
          List.getElem_append_right (by omega)]
        simp [show A.length + 1 - A.length = 1 from by omega]
      rw [h1] at hsucc
      simp only [Option.map_some', Option.some.injEq] at hsucc
      exact hsucc
  · obtain ⟨-, hpred⟩ := hl A.length ht
    rw [hvt] at hpred
    simp only [Option.map_some'] at hpred
    cases A with
    | cons a A' =>
      simp only [List.length_cons] at hpred hlen
      have hmod : (A'.length + 1 + r.nodes.length - 1) % r.nodes.length = A'.length := by
        rw [show A'.length + 1 + r.nodes.length - 1 = A'.length + r.nodes.length from by
          omega, Nat.add_mod_right]
        exact Nat.mod_eq_of_lt (by omega)
      rw [hmod] at hpred
      have hgl : r.nodes[A'.length]? = some ((a :: A').get ⟨A'.length, by simp⟩) := by
        rw [hsplit, List.getElem?_append_left (by simp),
          List.getElem?_eq_getElem (by simp)]
        rfl
      rw [hgl] at hpred
      simp only [Option.map_some', Option.some.injEq] at hpred
      have hcp : cpred (a :: A') B v = (a :: A').get ⟨A'.length, by simp⟩ := by
        unfold cpred
        have hgla : (a :: A').getLast? = some ((a :: A').get ⟨A'.length, by simp⟩) := by
          rw [List.getLast?_eq_getElem?,
            show (a :: A').length - 1 = A'.length from by simp,
            List.getElem?_eq_getElem (by simp)]
          rfl
        rw [hgla]
        rfl
      rw [hcp]
      exact hpred
    | nil =>
      simp only [List.length_nil] at hpred hlen
      have hmod : (0 + r.nodes.length - 1) % r.nodes.length = r.nodes.length - 1 := by
        rw [show 0 + r.nodes.length - 1 = r.nodes.length - 1 from by omega]
        exact Nat.mod_eq_of_lt (by omega)
      rw [hmod] at hpred
      cases B with
      | nil =>
        have h0 : r.nodes[r.nodes.length - 1]? = some v := by
          rw [hsplit]
          simp
        rw [h0] at hpred
        simp only [Option.map_some', Option.some.injEq] at hpred
        exact hpred
      | cons b B' =>
        have hlast : r.nodes[r.nodes.length - 1]? =
            some ((b :: B').get ⟨B'.length, by simp⟩) := by
          rw [hsplit]
          simp only [List.nil_append]
          rw [show (v :: b :: B').length - 1 = B'.length + 1 from by simp,
            List.getElem?_eq_getElem (by simp)]
          congr 1
        rw [hlast] at hpred
        simp only [Option.map_some', Option.some.injEq] at hpred
        have hcp : cpred [] (b :: B') v = (b :: B').get ⟨B'.length, by simp⟩ := by
          unfold cpred
          have hbl : (b :: B').getLast? = some ((b :: B').get ⟨B'.length, by simp⟩) := by
            rw [List.getLast?_eq_getElem?,
              show (b :: B').length - 1 = B'.length from by simp,
              List.getElem?_eq_getElem (by simp)]
            rfl
          rw [hbl]
          rfl
        rw [hcp]
        exact hpred

/-- Pending-indexed fold-invariant principle for the redistribute loop: the
invariant may cite the items not yet processed. -/
theorem foldl_redistribute_pending (new_id succ_id pred_id : Nat)
    (Q : List (Nat × Rec) → ChordRing → Prop)
    (hstep : ∀ (pending : List (Nat × Rec)) (item : Nat × Rec) r1 a b r2 a2 b2,
      redistribute_step new_id succ_id pred_id (some (r1, a, b)) item =
        some (r2, a2, b2) → Q (item :: pending) r1 → Q pending r2) :
    ∀ (items : List (Nat × Rec)) (r0 : ChordRing) (a0 b0 : Nat), Q items r0 →
      ∀ r1 a1 b1,
        items.foldl (redistribute_step new_id succ_id pred_id)
          (some (r0, a0, b0)) = some (r1, a1, b1) → Q [] r1 := by
  intro items
  induction items with
  | nil =>
    intro r0 a0 b0 hp r1 a1 b1 hf
    simp only [List.foldl_nil] at hf
    obtain ⟨h1, -⟩ := Prod.mk.injEq .. ▸ Option.some.inj hf
    exact h1 ▸ hp
  | cons x xs ih =>
    intro r0 a0 b0 hp r1 a1 b1 hf
    rw [List.foldl_cons] at hf
    cases hstep1 : redistribute_step new_id succ_id pred_id (some (r0, a0, b0)) x with
    | none =>
      rw [hstep1, foldl_redistribute_none] at hf
      exact absurd hf (by simp)
    | some acc =>
      obtain ⟨r2, a2, b2⟩ := acc
      rw [hstep1] at hf
      exact ih r2 a2 b2 (hstep xs x r0 a0 b0 r2 a2 b2 hstep1 hp) r1 a1 b1 hf


/-! ## Storage ownership across a join's key redistribution -/

/-- The ids after the sort-and-relink step of a join are a permutation of the
old ids plus the joining id. -/
theorem ids_join_mid_perm (r : ChordRing) (nid : Nat) :
    ((update_links ((r.nodes ++ [mk_node nid r.m]).insertionSort node_le)).map
      (fun n => n.node_id)).Perm (r.nodes.map (fun n => n.node_id) ++ [nid]) := by
  rw [ids_update_links]
  have hperm := (List.perm_insertionSort node_le (r.nodes ++ [mk_node nid r.m])).map
    (fun n => n.node_id)
  rw [List.map_append] at hperm
  exact hperm

/-- The sort-and-relink step of a join with a fresh id yields a strictly
sorted membership list. -/
theorem sortedIds_join_mid {r : ChordRing} (hs : SortedIds r.nodes) {nid : Nat}
    (hfresh : nid ∉ ids r) :
    SortedIds (update_links ((r.nodes ++ [mk_node nid r.m]).insertionSort node_le)) := by
  have hle : SortedIdsLe ((r.nodes ++ [mk_node nid r.m]).insertionSort node_le) :=
    List.sorted_insertionSort node_le _
  have hnd0 : (r.nodes.map (fun n => n.node_id) ++ [nid]).Nodup := by
    have h1 : (nid :: r.nodes.map (fun n => n.node_id)).Nodup :=
      List.nodup_cons.mpr ⟨hfresh, nodup_ids_of_sortedIds hs⟩
    exact (List.perm_append_singleton nid _).symm.nodup h1
  have hnd1 : (((r.nodes ++ [mk_node nid r.m]).insertionSort node_le).map
      (fun n => n.node_id)).Nodup := by
    have hperm := (List.perm_insertionSort node_le (r.nodes ++ [mk_node nid r.m])).map
      (fun n => n.node_id)
    refine hperm.symm.nodup ?_
    rw [List.map_append]
    exact hnd0
  have hsorted : SortedIds ((r.nodes ++ [mk_node nid r.m]).insertionSort node_le) :=
    sortedIds_of_le_nodup hle hnd1
  exact sortedIds_of_map_eq (ids_update_links _).symm hsorted

/-- The id list of a strictly sorted membership list is strictly sorted. -/
theorem pairwise_ids_of_sortedIds {ns : List ChordNode} (hs : SortedIds ns) :
    List.Pairwise (fun a b : Nat => a < b) (ns.map (fun n => n.node_id)) :=
  List.pairwise_map.mpr hs

/-- Storage ownership after the key redistribution of a join: starting from a
sorted, linked ring with correct storage and joining a fresh id, the ring
produced by `_redistribute_keys` assigns every stored key to its linear-scan
owner. -/
theorem join_storage {r : ChordRing} (hs : SortedIds r.nodes) (hl : LinksOK r)
    (hst : StorageOK r) {nid : Nat} (hfresh : nid ∉ ids r)
    (hne0 : r.nodes ≠ []) {r2 : ChordRing} {mh mv : Nat}
    (hred : redistribute_keys
      (ChordRing.mk r.m
        (update_links ((r.nodes ++ [mk_node nid r.m]).insertionSort node_le)))
      nid = some (r2, mh, mv)) :
    StorageOK r2 := by
  set R1 : ChordRing := ChordRing.mk r.m
    (update_links ((r.nodes ++ [mk_node nid r.m]).insertionSort node_le)) with hR1def
  have hs1 : SortedIds R1.nodes := sortedIds_join_mid hs hfresh
  have hl1 : LinksOK R1 := linksOK_update_links r.m _
  have hnd1 : (R1.nodes.map (fun n => n.node_id)).Nodup := nodup_ids_of_sortedIds hs1
  have hlen1 : R1.nodes.length = r.nodes.length + 1 := by
    show (update_links _).length = _
    rw [length_update_links,
      (List.perm_insertionSort node_le (r.nodes ++ [mk_node nid r.m])).length_eq,
      List.length_append]
    rfl
  unfold redistribute_keys at hred
  split at hred
  · exact absurd hred (by simp)
  · rename_i new_node hget
    split at hred
    · rename_i pred_id succ_id hpred hsucc2
      split at hred
      · exact absurd hred (by simp)
      · rename_i succ_node hgetsucc
        have hmem_new : new_node ∈ R1.nodes := (getNode_spec hget).1
        have hnewid : new_node.node_id = nid := (getNode_spec hget).2
        obtain ⟨A, B, hsplit, hA2, hB2, hsucceq, hpredeq⟩ :=
          adjacent_split hs1 hl1 hmem_new
        have hpredid : pred_id = (cpred A B new_node).node_id :=
          Option.some.inj (hpred.symm.trans hpredeq)
        have hsuccid : succ_id = (csucc A B new_node).node_id :=
          Option.some.inj (hsucc2.symm.trans hsucceq)
        have hidsR1 : R1.nodes.map (fun n => n.node_id) =
            A.map (fun n => n.node_id) ++ nid :: B.map (fun n => n.node_id) := by
          rw [hsplit, List.map_append, List.map_cons, hnewid]
        have hbounds1 : ∀ a ∈ A.map (fun n => n.node_id), a < nid := by
          intro a ha
          obtain ⟨w, hw, hwid⟩ := List.mem_map.mp ha
          have := hA2 w hw
          have h2 : w.node_id = a := hwid
          omega
        have hbounds2 : ∀ b ∈ B.map (fun n => n.node_id), nid < b := by
          intro b hb
          obtain ⟨w, hw, hwid⟩ := List.mem_map.mp hb
          have := hB2 w hw
          have h2 : w.node_id = b := hwid
          omega
        have hperm0 := ids_join_mid_perm r nid
        rw [show (update_links ((r.nodes ++ [mk_node nid r.m]).insertionSort node_le)).map
            (fun n => n.node_id) = R1.nodes.map (fun n => n.node_id) from rfl,
          hidsR1] at hperm0
        have hperm1 : (A.map (fun n => n.node_id) ++ B.map (fun n => n.node_id)).Perm
            (r.nodes.map (fun n => n.node_id)) := by
          have hmid : (nid :: (A.map (fun n => n.node_id) ++
              B.map (fun n => n.node_id))).Perm
              (A.map (fun n => n.node_id) ++ nid :: B.map (fun n => n.node_id)) :=
            List.perm_middle.symm
          have hchain := (hmid.trans hperm0).trans (List.perm_append_singleton nid _)
          exact hchain.cons_inv
        have hsorted_r : List.Pairwise (fun a b : Nat => a < b)
            (r.nodes.map (fun n => n.node_id)) :=
          pairwise_ids_of_sortedIds hs
        have hsortedR1 : List.Pairwise (fun a b : Nat => a < b)
            (A.map (fun n => n.node_id) ++ nid :: B.map (fun n => n.node_id)) := by
          rw [← hidsR1]
          exact pairwise_ids_of_sortedIds hs1
        have hsortedAB : List.Pairwise (fun a b : Nat => a < b)
            (A.map (fun n => n.node_id) ++ B.map (fun n => n.node_id)) :=
          List.Pairwise.sublist
            (List.Sublist.append_left (List.sublist_cons_self nid _) _) hsortedR1
        have hidseq : r.nodes.map (fun n => n.node_id) =
            A.map (fun n => n.node_id) ++ B.map (fun n => n.node_id) :=
          (List.eq_of_perm_of_sorted hperm1 hsortedAB hsorted_r).symm
        have hABnonempty : A.map (fun n => n.node_id) ++ B.map (fun n => n.node_id) ≠ [] := by
          rw [← hidseq]
          intro he
          exact hne0 (List.map_eq_nil_iff.mp he)
        have hpredval : pred_id =
            ((A.map (fun n => n.node_id)).getLast?).getD
              (((B.map (fun n => n.node_id)).getLast?).getD nid) := by
          rw [hpredid, cpred_id, hnewid]
        have hsuccval : succ_id =
            ((B.map (fun n => n.node_id)).head?).getD
              (((A.map (fun n => n.node_id)).head?).getD nid) := by
          rw [hsuccid, csucc_id, hnewid]
        have hlsplit := fun k => lin_split (A.map (fun n => n.node_id))
          (B.map (fun n => n.node_id)) nid hbounds1 hbounds2 hsortedAB hABnonempty k
        have harcA : ∀ k, in_interval k pred_id nid = true →
            find_successor_linear R1 k = some nid := by
          intro k hk
          rw [linear_eq_lin, show ids R1 = A.map (fun n => n.node_id) ++
            nid :: B.map (fun n => n.node_id) from hidsR1]
          rw [hpredval] at hk
          exact ((hlsplit k).1 hk).2
        have harcC : ∀ k, in_interval k pred_id nid = true →
            find_successor_linear r k = some succ_id := by
          intro k hk
          rw [linear_eq_lin, show ids r = A.map (fun n => n.node_id) ++
            B.map (fun n => n.node_id) from hidseq]
          rw [hpredval] at hk
          rw [hsuccval]
          exact ((hlsplit k).1 hk).1
        have harcB : ∀ k, in_interval k pred_id nid = false →
            find_successor_linear r k = find_successor_linear R1 k := by
          intro k hk
          rw [linear_eq_lin, linear_eq_lin,
            show ids r = A.map (fun n => n.node_id) ++
              B.map (fun n => n.node_id) from hidseq,
            show ids R1 = A.map (fun n => n.node_id) ++
              nid :: B.map (fun n => n.node_id) from hidsR1]
          rw [hpredval] at hk
          exact (hlsplit k).2 hk
        have hABne : A ≠ [] ∨ B ≠ [] := by
          by_cases hA0 : A = []
          · right
            intro hB0
            rw [hA0, hB0] at hsplit
            have hx := hlen1
            rw [hsplit] at hx
            simp only [List.nil_append, List.length_cons, List.length_nil] at hx
            have hr0 : r.nodes.length = 0 := by omega
            exact hne0 (List.length_eq_zero.mp hr0)
          · left
            exact hA0
        have hsne : succ_id ≠ nid := by
          rw [hsuccid, ← hnewid]
          exact csucc_ne hA2 hB2 hABne
        have hstepQ : ∀ (pending : List (Nat × Rec)) (item : Nat × Rec) rr a b rr2 a2 b2,
            redistribute_step nid succ_id pred_id (some (rr, a, b)) item =
              some (rr2, a2, b2) →
            (rr.nodes.map linkShape = R1.nodes.map linkShape ∧
              ∀ v ∈ rr.nodes, ∀ p ∈ v.btree,
                find_successor_linear R1 p.1 = some v.node_id ∨
                (v.node_id = succ_id ∧ in_interval p.1 pred_id nid = true ∧
                  p.1 ∈ (item :: pending).map Prod.fst)) →
            (rr2.nodes.map linkShape = R1.nodes.map linkShape ∧
              ∀ v ∈ rr2.nodes, ∀ p ∈ v.btree,
                find_successor_linear R1 p.1 = some v.node_id ∨
                (v.node_id = succ_id ∧ in_interval p.1 pred_id nid = true ∧
                  p.1 ∈ pending.map Prod.fst)) := by
          intro pending item rr a b rr2 a2 b2 hstepEq hQ
          obtain ⟨hshape, hown⟩ := hQ
          have hids_rr : rr.nodes.map (fun n => n.node_id) =
              R1.nodes.map (fun n => n.node_id) := ids_of_linkShape_eq hshape
          have hnd_rr : (rr.nodes.map (fun n => n.node_id)).Nodup := by
            rw [hids_rr]
            exact hnd1
          simp only [redistribute_step] at hstepEq
          split at hstepEq
          · rename_i harc
            split at hstepEq
            · rename_i pr hfind
              simp only [Option.some.injEq, Prod.mk.injEq] at hstepEq
              obtain ⟨hr2, -⟩ := hstepEq
              subst hr2
              constructor
              · show (set_node (set_node rr.nodes nid _) succ_id _).map linkShape = _
                rw [map_set_node linkShape _ succ_id
                    (fun n => { n with btree := btree_delete n.btree item.1 }) (fun n => rfl),
                  map_set_node linkShape _ nid
                    (fun n => { n with btree := btree_insert n.btree item.2 item.1 })
                    (fun n => rfl)]
                exact hshape
              · intro v hv p hp
                have hnd_mid : ((set_node rr.nodes nid
                    (fun n => { n with btree := btree_insert n.btree item.2 item.1 })).map
                    (fun n => n.node_id)).Nodup := by
                  rw [map_set_node (fun n => n.node_id) _ nid
                    (fun n => { n with btree := btree_insert n.btree item.2 item.1 })
                    (fun n => rfl)]
                  exact hnd_rr
                rcases mem_set_node_nodup hnd_mid hv with ⟨hv1, hne1⟩ | ⟨w, hw, hwid, hveq⟩
                · rcases mem_set_node_nodup hnd_rr hv1 with ⟨hv0, hne0⟩ | ⟨w, hw, hwid, hveq⟩
                  · rcases hown v hv0 p hp with hleft | ⟨hvid, -, -⟩
                    · left
                      exact hleft
                    · exact absurd hvid hne1
                  · subst hveq
                    rcases List.mem_append.mp
                        (show p ∈ w.btree ++ [(item.1, item.2)] from hp) with hpw | hpnew
                    · rcases hown w hw p hpw with hleft | ⟨hwsucc, -, -⟩
                      · left
                        exact hleft
                      · exact absurd (hwsucc.symm.trans hwid) hsne
                    · have hpe : p = (item.1, item.2) := by simpa using hpnew
                      left
                      rw [hpe]
                      show find_successor_linear R1 item.1 = some w.node_id
                      rw [hwid]
                      exact harcA item.1 harc
                · subst hveq
                  rcases mem_set_node_nodup hnd_rr hw with ⟨hw0, hne0⟩ | ⟨w2, hw2, hw2id, hweq⟩
                  · obtain ⟨hpw, hpne⟩ := List.mem_filter.mp
                      (show p ∈ w.btree.filter (fun q => q.1 != item.1) from hp)
                    have hpne2 : p.1 ≠ item.1 := by simpa using hpne
                    rcases hown w hw0 p hpw with hleft | ⟨hwsucc, hain, hpend⟩
                    · left
                      exact hleft
                    · right
                      refine ⟨hwsucc, hain, ?_⟩
                      rcases List.mem_cons.mp
                          (show p.1 ∈ item.1 :: pending.map Prod.fst from by
                            simpa using hpend) with he | hm
                      · exact absurd he hpne2
                      · exact hm
                  · have hwnid : w.node_id = nid := by
                      rw [hweq]
                      exact hw2id
                    exact absurd (hwid.symm.trans hwnid) hsne
            · exact absurd hstepEq (by simp)
          · rename_i harc
            simp only [Option.some.injEq, Prod.mk.injEq] at hstepEq
            obtain ⟨hr2, -⟩ := hstepEq
            subst hr2
            refine ⟨hshape, ?_⟩
            intro v hv p hp
            rcases hown v hv p hp with hleft | ⟨hvid, hain, hpend⟩
            · left
              exact hleft
            · right
              refine ⟨hvid, hain, ?_⟩
              rcases List.mem_cons.mp
                  (show p.1 ∈ item.1 :: pending.map Prod.fst from by
                    simpa using hpend) with he | hm
              · rw [he] at hain
                exact absurd hain harc
              · exact hm
        have hQ0 : R1.nodes.map linkShape = R1.nodes.map linkShape ∧
            ∀ v ∈ R1.nodes, ∀ p ∈ v.btree,
              find_successor_linear R1 p.1 = some v.node_id ∨
              (v.node_id = succ_id ∧ in_interval p.1 pred_id nid = true ∧
                p.1 ∈ (get_all_items succ_node.btree).map Prod.fst) := by
          refine ⟨rfl, ?_⟩
          intro v hv p hp
          obtain ⟨w, hw, hvid, hvbt⟩ := mem_update_links_store hv
          have hw2 : w ∈ r.nodes ++ [mk_node nid r.m] :=
            (List.perm_insertionSort node_le _).mem_iff.mp hw
          rcases List.mem_append.mp hw2 with hwold | hwnew
          · have hlin_r : find_successor_linear r p.1 = some w.node_id :=
              hst w hwold p (by rw [← hvbt]; exact hp)
            by_cases harc : in_interval p.1 pred_id nid = true
            · have hsuccown := harcC p.1 harc
              have hwsucc : w.node_id = succ_id :=
                Option.some.inj (hlin_r.symm.trans hsuccown)
              right
              refine ⟨by rw [hvid, hwsucc], harc, ?_⟩
              have hv_get : getNode R1 v.node_id = some v := getNode_at_member hs1 hv
              have hvmem_id : v.node_id = succ_id := by rw [hvid, hwsucc]
              rw [hvmem_id] at hv_get
              have hveq2 : v = succ_node := Option.some.inj (hv_get.symm.trans hgetsucc)
              show p.1 ∈ succ_node.btree.map Prod.fst
              exact List.mem_map.mpr ⟨p, by rw [← hveq2]; exact hp, rfl⟩
            · left
              have harc2 : in_interval p.1 pred_id nid = false := by
                simpa using harc
              rw [← harcB p.1 harc2, hvid]
              exact hlin_r
          · have hwe : w = mk_node nid r.m := by simpa using hwnew
            rw [hwe] at hvbt
            rw [hvbt] at hp
            exact absurd hp (by simp [mk_node])
        have hfinal := foldl_redistribute_pending nid succ_id pred_id
          (fun pending rr =>
            rr.nodes.map linkShape = R1.nodes.map linkShape ∧
            ∀ v ∈ rr.nodes, ∀ p ∈ v.btree,
              find_successor_linear R1 p.1 = some v.node_id ∨
              (v.node_id = succ_id ∧ in_interval p.1 pred_id nid = true ∧
                p.1 ∈ pending.map Prod.fst))
          hstepQ (get_all_items succ_node.btree) R1 0 0 hQ0 r2 mh mv hred
        obtain ⟨hshape2, hown2⟩ := hfinal
        intro v hv p hp
        rcases hown2 v hv p hp with hleft | ⟨-, -, hpend⟩
        · exact (linear_of_ids_eq (ids_of_linkShape_eq hshape2) p.1).trans hleft
        · exact absurd hpend (by simp)
    · exact absurd hred (by simp)


/-! ## Storage ownership across a leave -/

/-- Equal store shapes give equal id lists. -/
theorem ids_of_storeShape_eq {ns1 ns2 : List ChordNode}
    (h : ns1.map storeShape = ns2.map storeShape) :
    ns1.map (fun n => n.node_id) = ns2.map (fun n => n.node_id) := by
  have h2 := congrArg (List.map Prod.fst) h
  simpa [List.map_map, Function.comp, storeShape] using h2

/-- Storage ownership after the main path of a leave: starting from a sorted,
linked ring with correct storage, moving the leaving node's items to its
successor, erasing the node and relinking reassigns every stored key to its
linear-scan owner in the shrunken ring. -/
theorem leave_storage {r : ChordRing} (hs : SortedIds r.nodes) (hl : LinksOK r)
    (hst : StorageOK r) {node : ChordNode} (hnode : node ∈ r.nodes)
    {succ_id : Nat} (hsucc : node.successor = some succ_id)
    (hlen : 1 < r.nodes.length) :
    StorageOK (ChordRing.mk r.m (update_links
      ((set_node r.nodes succ_id
        (fun n => { n with btree := (get_all_items node.btree).foldl (fun t item => btree_insert t item.2 item.1) n.btree })).eraseP
        (fun n => n.node_id == node.node_id)))) := by
  obtain ⟨A, B, hsplit, hA2, hB2, hsucceq, hpredeq⟩ := adjacent_split hs hl hnode
  have hsuccid : succ_id = (csucc A B node).node_id :=
    Option.some.inj (hsucc.symm.trans hsucceq)
  have hidseq : r.nodes.map (fun n => n.node_id) =
      A.map (fun n => n.node_id) ++ node.node_id :: B.map (fun n => n.node_id) := by
    rw [hsplit, List.map_append, List.map_cons]
  have hbounds1 : ∀ a ∈ A.map (fun n => n.node_id), a < node.node_id := by
    intro a ha
    obtain ⟨w, hw, hwid⟩ := List.mem_map.mp ha
    have := hA2 w hw
    have h2 : w.node_id = a := hwid
    omega
  have hbounds2 : ∀ b ∈ B.map (fun n => n.node_id), node.node_id < b := by
    intro b hb
    obtain ⟨w, hw, hwid⟩ := List.mem_map.mp hb
    have := hB2 w hw
    have h2 : w.node_id = b := hwid
    omega
  have hsorted_r : List.Pairwise (fun a b : Nat => a < b)
      (A.map (fun n => n.node_id) ++ node.node_id :: B.map (fun n => n.node_id)) := by
    rw [← hidseq]
    exact pairwise_ids_of_sortedIds hs
  have hsortedAB : List.Pairwise (fun a b : Nat => a < b)
      (A.map (fun n => n.node_id) ++ B.map (fun n => n.node_id)) :=
    List.Pairwise.sublist
      (List.Sublist.append_left (List.sublist_cons_self node.node_id _) _) hsorted_r
  have hnd : (r.nodes.map (fun n => n.node_id)).Nodup := nodup_ids_of_sortedIds hs
  have hnid_notAB : node.node_id ∉
      A.map (fun n => n.node_id) ++ B.map (fun n => n.node_id) := by
    have hnd2 := hnd
    rw [hidseq] at hnd2
    have hnd3 := List.nodup_middle.mp hnd2
    exact (List.nodup_cons.mp hnd3).1
  have hABne : A ≠ [] ∨ B ≠ [] := by
    by_cases hA0 : A = []
    · right
      intro hB0
      rw [hA0, hB0] at hsplit
      rw [hsplit] at hlen
      simp at hlen
    · left
      exact hA0
  have hsne : succ_id ≠ node.node_id := by
    rw [hsuccid]
    exact csucc_ne hA2 hB2 hABne
  have hABnonempty : A.map (fun n => n.node_id) ++ B.map (fun n => n.node_id) ≠ [] := by
    intro he
    rcases List.append_eq_nil.mp he with ⟨hA0, hB0⟩
    rw [List.map_eq_nil_iff.mp hA0, List.map_eq_nil_iff.mp hB0] at hsplit
    rw [hsplit] at hlen
    simp at hlen
  have hlsplit := fun k => lin_split (A.map (fun n => n.node_id))
    (B.map (fun n => n.node_id)) node.node_id hbounds1 hbounds2 hsortedAB hABnonempty k
  have hsuccval : succ_id =
      ((B.map (fun n => n.node_id)).head?).getD
        (((A.map (fun n => n.node_id)).head?).getD node.node_id) := by
    rw [hsuccid, csucc_id]
  have hF1 : ∀ k j, find_successor_linear r k = some j → j ≠ node.node_id →
      lin (A.map (fun n => n.node_id) ++ B.map (fun n => n.node_id)) k = some j := by
    intro k j hj hne
    rw [linear_eq_lin, show ids r = A.map (fun n => n.node_id) ++
      node.node_id :: B.map (fun n => n.node_id) from hidseq] at hj
    by_cases harc : in_interval k
        (((A.map (fun n => n.node_id)).getLast?).getD
          (((B.map (fun n => n.node_id)).getLast?).getD node.node_id)) node.node_id = true
    · have hnidown := ((hlsplit k).1 harc).2
      rw [hj] at hnidown
      exact absurd (Option.some.inj hnidown) hne
    · have harc2 : in_interval k
          (((A.map (fun n => n.node_id)).getLast?).getD
            (((B.map (fun n => n.node_id)).getLast?).getD node.node_id)) node.node_id =
          false := by
        simpa using harc
      rw [(hlsplit k).2 harc2]
      exact hj
  have hF2 : ∀ k, find_successor_linear r k = some node.node_id →
      lin (A.map (fun n => n.node_id) ++ B.map (fun n => n.node_id)) k = some succ_id := by
    intro k hk
    rw [linear_eq_lin, show ids r = A.map (fun n => n.node_id) ++
      node.node_id :: B.map (fun n => n.node_id) from hidseq] at hk
    by_cases harc : in_interval k
        (((A.map (fun n => n.node_id)).getLast?).getD
          (((B.map (fun n => n.node_id)).getLast?).getD node.node_id)) node.node_id = true
    · rw [hsuccval]
      exact ((hlsplit k).1 harc).1
    · have harc2 : in_interval k
          (((A.map (fun n => n.node_id)).getLast?).getD
            (((B.map (fun n => n.node_id)).getLast?).getD node.node_id)) node.node_id =
          false := by
        simpa using harc
      have heqlin := (hlsplit k).2 harc2
      rw [hk] at heqlin
      exact absurd (lin_mem heqlin) hnid_notAB
  have hcore_ids : (update_links ((set_node r.nodes succ_id
      (fun n => { n with btree := (get_all_items node.btree).foldl (fun t item => btree_insert t item.2 item.1) n.btree })).eraseP
      (fun n => n.node_id == node.node_id))).map (fun n => n.node_id) =
      A.map (fun n => n.node_id) ++ B.map (fun n => n.node_id) := by
    rw [ids_update_links]
    have h1 : (set_node r.nodes succ_id
        (fun n => { n with btree := (get_all_items node.btree).foldl (fun t item => btree_insert t item.2 item.1) n.btree })).map
        (fun n => n.node_id) = r.nodes.map (fun n => n.node_id) :=
      map_set_node (fun n => n.node_id) _ succ_id (fun n => { n with btree := (get_all_items node.btree).foldl (fun t item => btree_insert t item.2 item.1) n.btree }) (fun n => rfl)
    rw [ids_eraseP_of_ids_eq node.node_id h1]
    rw [hsplit, List.eraseP_append_right _ (fun a ha => by
      have h3 := hA2 a ha
      simp only [beq_iff_eq]
      omega)]
    rw [List.eraseP_cons_of_pos (p := fun n : ChordNode => n.node_id == node.node_id)
      (by simp)]
    rw [List.map_append]
  have hndset : ((set_node r.nodes succ_id
      (fun n => { n with btree := (get_all_items node.btree).foldl (fun t item => btree_insert t item.2 item.1) n.btree })).map
      (fun n => n.node_id)).Nodup := by
    rw [map_set_node (fun n => n.node_id) _ succ_id (fun n => { n with btree := (get_all_items node.btree).foldl (fun t item => btree_insert t item.2 item.1) n.btree }) (fun n => rfl)]
    exact hnd
  intro v hv p hp
  obtain ⟨w, hwX, hvid, hvbt⟩ := mem_update_links_store hv
  obtain ⟨hwset, hwne⟩ := mem_eraseP_of_nodup_ids hndset hwX
  show find_successor_linear _ p.1 = some v.node_id
  rw [linear_eq_lin, show ids (ChordRing.mk r.m (update_links
      ((set_node r.nodes succ_id
        (fun n => { n with btree := (get_all_items node.btree).foldl (fun t item => btree_insert t item.2 item.1) n.btree })).eraseP
        (fun n => n.node_id == node.node_id)))) =
      A.map (fun n => n.node_id) ++ B.map (fun n => n.node_id) from hcore_ids]
  rcases mem_set_node_nodup hnd hwset with ⟨hw0, hwnesucc⟩ | ⟨w2, hw2, hw2succ, hweq⟩
  · have hlin_r : find_successor_linear r p.1 = some w.node_id :=
      hst w hw0 p (by rw [← hvbt]; exact hp)
    rw [hvid]
    exact hF1 p.1 w.node_id hlin_r hwne
  · have hwbt : w.btree = w2.btree ++ node.btree := by
      rw [hweq]
      exact foldl_btree_insert node.btree w2.btree
    have hwid2 : w.node_id = succ_id := by
      rw [hweq]
      exact hw2succ
    have hpmem : p ∈ w2.btree ++ node.btree := by
      rw [← hwbt, ← hvbt]
      exact hp
    rw [hvid, hwid2]
    rcases List.mem_append.mp hpmem with hpw | hpn
    · have hlin_r : find_successor_linear r p.1 = some w2.node_id := hst w2 hw2 p hpw
      rw [hw2succ] at hlin_r
      exact hF1 p.1 succ_id hlin_r hsne
    · have hlin_r : find_successor_linear r p.1 = some node.node_id :=
      hst node hnode p hpn
      exact hF2 p.1 hlin_r


/-! ## Insert preserves the invariant -/

/-- `insert` preserves sortedness, links, finger resolution and storage
ownership. -/
theorem insert_inv {r : ChordRing} (hs : SortedIds r.nodes) (hl : LinksOK r)
    (hf : FingersOK r) (hst : StorageOK r) {k : Nat} {rec : Rec}
    {s : Option Nat} {r' : ChordRing} {h : Nat}
    (hins : insert r k rec s = some (r', h)) :
    SortedIds r'.nodes ∧ LinksOK r' ∧ FingersOK r' ∧ StorageOK r' := by
  unfold insert at hins
  split at hins
  · rename_i nid hops heq
    simp only [Option.some.injEq, Prod.mk.injEq] at hins
    obtain ⟨hr, -⟩ := hins
    subst hr
    have hlin : find_successor_linear r k = some nid := find_successor_sound hs hl heq
    have hshape : (set_node r.nodes nid
        (fun n => { n with btree := btree_insert n.btree rec k })).map dataShape =
        r.nodes.map dataShape :=
      map_set_node dataShape _ nid
        (fun n => { n with btree := btree_insert n.btree rec k }) (fun n => rfl)
    have hids := ids_of_dataShape_eq hshape
    have hnd : (r.nodes.map (fun n => n.node_id)).Nodup := nodup_ids_of_sortedIds hs
    refine ⟨sortedIds_of_map_eq hids.symm hs, ?_, ?_, ?_⟩
    · exact linksOK_of_linkShape_eq (u := r.m) (linkShape_of_dataShape_eq hshape).symm hl
    · exact fingersOK_of_dataShape_eq (u := r.m) hshape.symm hf
    · intro v hv p hp
      have htrans : find_successor_linear { r with nodes := set_node r.nodes nid (fun n => { n with btree := btree_insert n.btree rec k }) } p.1 =
          find_successor_linear r p.1 := linear_of_ids_eq hids p.1
      rcases mem_set_node_nodup hnd hv with ⟨hv0, hne0⟩ | ⟨w, hw, hwid, hveq⟩
      · rw [htrans]
        exact hst v hv0 p hp
      · subst hveq
        rcases List.mem_append.mp (show p ∈ w.btree ++ [(k, rec)] from hp) with hpw | hpn
        · rw [htrans]
          exact hst w hw p hpw
        · have hpe : p = (k, rec) := by simpa using hpn
          rw [hpe] at htrans ⊢
          show find_successor_linear _ k = some w.node_id
          rw [htrans, hwid]
          exact hlin
  · exact absurd hins (by simp)
  · exact absurd hins (by simp)



/-! ## The reachable-state invariant -/

/-- `join_node` with a fresh id preserves the invariant and storage
ownership. -/
theorem join_inv {r : ChordRing} (hs : SortedIds r.nodes) (hl : LinksOK r)
    (hst : StorageOK r) {nid : Nat} {s : Option Nat} {r2f : ChordRing}
    {h mv : Nat} (hfresh : nid ∉ ids r)
    (hjoin : join_node r nid s = some (r2f, h, mv)) :
    SortedIds r2f.nodes ∧ LinksOK r2f ∧ FingersOK r2f ∧ StorageOK r2f := by
  simp only [join_node] at hjoin
  have hlen1 : (update_links ((r.nodes ++ [mk_node nid r.m]).insertionSort node_le)).length =
      r.nodes.length + 1 := by
    rw [length_update_links,
      (List.perm_insertionSort node_le (r.nodes ++ [mk_node nid r.m])).length_eq,
      List.length_append]
    rfl
  split at hjoin
  · exact absurd hjoin (by simp)
  · split at hjoin
    · rename_i hgt
      split at hjoin
      · exact absurd hjoin (by simp)
      · rename_i r2 mh2 mv2 hred
        simp only [Option.some.injEq, Prod.mk.injEq] at hjoin
        obtain ⟨hreq, -⟩ := hjoin
        subst hreq
        have hgt2 : 1 < r.nodes.length + 1 := by
          rw [← hlen1]
          exact hgt
        have hne0 : r.nodes ≠ [] := by
          intro he
          rw [he] at hgt2
          simp at hgt2
        have hs1 : SortedIds (update_links
            ((r.nodes ++ [mk_node nid r.m]).insertionSort node_le)) :=
          sortedIds_join_mid hs hfresh
        have hlinkr2 := redistribute_keys_linkShape hred
        have hids12 : r2.nodes.map (fun n => n.node_id) =
            (update_links ((r.nodes ++ [mk_node nid r.m]).insertionSort node_le)).map
              (fun n => n.node_id) := ids_of_linkShape_eq hlinkr2.1
        have hsr2 : SortedIds r2.nodes := sortedIds_of_map_eq hids12.symm hs1
        have hstor2 : StorageOK r2 := join_storage hs hl hst hfresh hne0 hred
        have hfixstore : (fix_all_fingers r2).nodes.map storeShape =
            r2.nodes.map storeShape := map_fix_all_fingers storeShape r2 (fun n => rfl)
        have hfixids : (fix_all_fingers r2).nodes.map (fun n => n.node_id) =
            r2.nodes.map (fun n => n.node_id) :=
          map_fix_all_fingers (fun n => n.node_id) r2 (fun n => rfl)
        refine ⟨sortedIds_fix r2 hsr2, ?_, fingersOK_fix_all r2, ?_⟩
        · exact linksOK_fix r2 (linksOK_of_linkShape_eq (u := r.m) hlinkr2.1.symm
            (linksOK_update_links r.m _))
        · exact storageOK_transfer hfixstore.symm
            (fun k2 => linear_of_ids_eq hfixids.symm k2) hstor2
    · rename_i hle
      simp only [Option.some.injEq, Prod.mk.injEq] at hjoin
      obtain ⟨hreq, -⟩ := hjoin
      subst hreq
      have hre : r.nodes = [] := by
        rw [Nat.not_lt] at hle
        rw [hlen1] at hle
        exact List.length_eq_zero.mp (by omega)
      have hs1 : SortedIds (update_links
          ((r.nodes ++ [mk_node nid r.m]).insertionSort node_le)) :=
        sortedIds_join_mid hs hfresh
      have hstor1 : StorageOK (ChordRing.mk r.m (update_links
          ((r.nodes ++ [mk_node nid r.m]).insertionSort node_le))) := by
        intro v hv p hp
        obtain ⟨w, hw, -, hvbt⟩ := mem_update_links_store hv
        have hw2 : w ∈ r.nodes ++ [mk_node nid r.m] :=
          (List.perm_insertionSort node_le _).mem_iff.mp hw
        rw [hre] at hw2
        have hwe : w = mk_node nid r.m := by simpa using hw2
        rw [hwe] at hvbt
        rw [hvbt] at hp
        exact absurd hp (by simp [mk_node])
      have hfixstore : (fix_all_fingers (ChordRing.mk r.m (update_links
          ((r.nodes ++ [mk_node nid r.m]).insertionSort node_le)))).nodes.map storeShape =
          (update_links ((r.nodes ++ [mk_node nid r.m]).insertionSort node_le)).map
            storeShape := map_fix_all_fingers storeShape _ (fun n => rfl)
      have hfixids : (fix_all_fingers (ChordRing.mk r.m (update_links
          ((r.nodes ++ [mk_node nid r.m]).insertionSort node_le)))).nodes.map
            (fun n => n.node_id) =
          (update_links ((r.nodes ++ [mk_node nid r.m]).insertionSort node_le)).map
            (fun n => n.node_id) :=
        map_fix_all_fingers (fun n => n.node_id) _ (fun n => rfl)
      refine ⟨sortedIds_fix _ hs1, ?_, fingersOK_fix_all _, ?_⟩
      · exact linksOK_fix _ (linksOK_update_links r.m _)
      · exact storageOK_transfer hfixstore.symm
          (fun k2 => linear_of_ids_eq hfixids.symm k2) hstor1

/-- A completing `leave_node` preserves the invariant and storage
ownership. -/
theorem leave_inv {r : ChordRing} (hs : SortedIds r.nodes) (hl : LinksOK r)
    (hf : FingersOK r) (hst : StorageOK r) {nid : Nat} {s : Option Nat}
    {r2f : ChordRing} {ok : Bool} {h mv : Nat}
    (hleave : leave_node r nid s = some (r2f, ok, h, mv)) :
    SortedIds r2f.nodes ∧ LinksOK r2f ∧ FingersOK r2f ∧ StorageOK r2f := by
  simp only [leave_node] at hleave
  split at hleave
  · simp only [Option.some.injEq, Prod.mk.injEq] at hleave
    obtain ⟨hreq, -⟩ := hleave
    subst hreq
    exact ⟨hs, hl, hf, hst⟩
  · rename_i node hfind
    obtain ⟨hnodemem, hnodeid⟩ := getNode_spec hfind
    split at hleave
    · rename_i hlone
      simp only [Option.some.injEq, Prod.mk.injEq] at hleave
      obtain ⟨hreq, -⟩ := hleave
      subst hreq
      have hlen1 : r.nodes.length = 1 := by simpa using hlone
      obtain ⟨a, ha⟩ := List.length_eq_one.mp hlen1
      have hnode_a : node = a := by
        have hm := hnodemem
        rw [ha] at hm
        simpa using hm
      have herase : r.nodes.eraseP (fun n => n.node_id == nid) = [] := by
        rw [ha, List.eraseP_cons_of_pos (p := fun n : ChordNode => n.node_id == nid)
          (by show (a.node_id == nid) = true
              rw [← hnode_a, hnodeid]
              simp)]
      refine ⟨?_, ?_, ?_, ?_⟩
      · show SortedIds (r.nodes.eraseP (fun n => n.node_id == nid))
        rw [herase]
        exact List.Pairwise.nil
      · intro i hi
        have hi2 : i < (r.nodes.eraseP (fun n => n.node_id == nid)).length := hi
        rw [herase] at hi2
        exact absurd hi2 (by simp)
      · intro n hn
        have hn2 : n ∈ r.nodes.eraseP (fun n2 => n2.node_id == nid) := hn
        rw [herase] at hn2
        exact absurd hn2 (by simp)
      · intro v hv
        have hv2 : v ∈ r.nodes.eraseP (fun n2 => n2.node_id == nid) := hv
        rw [herase] at hv2
        exact absurd hv2 (by simp)
    · rename_i hlone
      split at hleave
      · exact absurd hleave (by simp)
      · rename_i pr rh hfs2
        split at hleave
        · exact absurd hleave (by simp)
        · rename_i succ_id hsucc
          simp only [Option.some.injEq, Prod.mk.injEq] at hleave
          obtain ⟨hreq, -⟩ := hleave
          subst hreq
          have hne0 : r.nodes ≠ [] := List.ne_nil_of_mem hnodemem
          have hlen2 : 1 < r.nodes.length := by
            have hne1 : r.nodes.length ≠ 1 := by simpa using hlone
            have hpos : 0 < r.nodes.length := List.length_pos.mpr hne0
            omega
          have hsOK := leave_storage hs hl hst hnodemem hsucc hlen2
          rw [hnodeid] at hsOK
          have hs_set : SortedIds (set_node r.nodes succ_id (fun n => { n with btree := (get_all_items node.btree).foldl (fun t item => btree_insert t item.2 item.1) n.btree })) :=
            sortedIds_of_map_eq (map_set_node (fun n => n.node_id) _ succ_id
              (fun n => { n with btree := (get_all_items node.btree).foldl (fun t item => btree_insert t item.2 item.1) n.btree })
              (fun n => rfl)).symm hs
          have hs_erase : SortedIds ((set_node r.nodes succ_id (fun n => { n with btree := (get_all_items node.btree).foldl (fun t item => btree_insert t item.2 item.1) n.btree })).eraseP (fun n => n.node_id == nid)) :=
            List.Pairwise.sublist (List.eraseP_sublist _) hs_set
          have hs_core : SortedIds (update_links ((set_node r.nodes succ_id (fun n => { n with btree := (get_all_items node.btree).foldl (fun t item => btree_insert t item.2 item.1) n.btree })).eraseP (fun n => n.node_id == nid))) :=
            sortedIds_of_map_eq (ids_update_links _).symm hs_erase
          have hfixstore : (fix_all_fingers (ChordRing.mk r.m (update_links ((set_node r.nodes succ_id (fun n => { n with btree := (get_all_items node.btree).foldl (fun t item => btree_insert t item.2 item.1) n.btree })).eraseP (fun n => n.node_id == nid))))).nodes.map storeShape =
              (update_links ((set_node r.nodes succ_id (fun n => { n with btree := (get_all_items node.btree).foldl (fun t item => btree_insert t item.2 item.1) n.btree })).eraseP (fun n => n.node_id == nid))).map storeShape :=
            map_fix_all_fingers storeShape _ (fun n => rfl)
          have hfixids : (fix_all_fingers (ChordRing.mk r.m (update_links ((set_node r.nodes succ_id (fun n => { n with btree := (get_all_items node.btree).foldl (fun t item => btree_insert t item.2 item.1) n.btree })).eraseP (fun n => n.node_id == nid))))).nodes.map (fun n => n.node_id) =
              (update_links ((set_node r.nodes succ_id (fun n => { n with btree := (get_all_items node.btree).foldl (fun t item => btree_insert t item.2 item.1) n.btree })).eraseP (fun n => n.node_id == nid))).map (fun n => n.node_id) :=
            map_fix_all_fingers (fun n => n.node_id) _ (fun n => rfl)
          refine ⟨sortedIds_fix _ hs_core, ?_, fingersOK_fix_all _, ?_⟩
          · exact linksOK_fix _ (linksOK_update_links r.m _)
          · exact storageOK_transfer hfixstore.symm
              (fun k2 => linear_of_ids_eq hfixids.symm k2) hsOK

/-- Master invariant: every ring reachable from the empty ring by completing
joins (fresh ids), leaves and inserts is strictly sorted, correctly linked,
has resolvable fingers, and stores every key at its linear-scan owner. -/
theorem reach_inv {r : ChordRing} (hr : Reach r) :
    SortedIds r.nodes ∧ LinksOK r ∧ FingersOK r ∧ StorageOK r := by
  induction hr with
  | empty m =>
    refine ⟨List.Pairwise.nil, ?_, ?_, ?_⟩
    · intro i hi
      exact absurd hi (by simp)
    · intro n hn
      exact absurd hn (by simp)
    · intro v hv
      exact absurd hv (by simp)
  | ins hr0 hins ih =>
    obtain ⟨hs, hl, hf, hst⟩ := ih
    exact insert_inv hs hl hf hst hins
  | join hr0 hfresh hjoin ih =>
    obtain ⟨hs, hl, hf, hst⟩ := ih
    exact join_inv hs hl hst hfresh hjoin
  | leave hr0 hleave ih =>
    obtain ⟨hs, hl, hf, hst⟩ := ih
    exact leave_inv hs hl hf hst hleave


/-- C1: ownership invariant — in every ring reachable from the empty ring by
a finite sequence of completing `join_node` calls (fresh node ids),
`leave_node` calls and inserts, every stored key `k` is routed by
`find_successor` (from any valid start node) to exactly the member whose
storage holds `k`, and no key is simultaneously held by two distinct
members — keys are neither lost nor duplicated across the membership
changes. -/
theorem c1_ownership (r : ChordRing) (hr : Reach r) :
    (∀ v ∈ r.nodes, ∀ p ∈ v.btree, ∀ s, start_ok r s = true →
      ∃ hops, find_successor r p.1 s = some (some v.node_id, hops)) ∧
    (∀ v ∈ r.nodes, ∀ w ∈ r.nodes, ∀ p ∈ v.btree, ∀ q ∈ w.btree,
      p.1 = q.1 → v = w) := by
  obtain ⟨hs, hl, hf, hst⟩ := reach_inv hr
  constructor
  · intro v hv p hp s hok
    have hne : r.nodes ≠ [] := List.ne_nil_of_mem hv
    obtain ⟨nid2, hops, hfs, hlin⟩ := find_successor_owner hs hl hf hne p.1 hok
    have hown := hst v hv p hp
    have heq : nid2 = v.node_id := Option.some.inj (hlin.symm.trans hown)
    exact ⟨hops, by rw [← heq]; exact hfs⟩
  · intro v hv w hw p hp q hq hpq
    have h1 := hst v hv p hp
    have h2 := hst w hw q hq
    rw [hpq] at h1
    have hid : v.node_id = w.node_id := Option.some.inj (h1.symm.trans h2)
    have g1 : getNode r v.node_id = some v := getNode_at_member hs hv
    have g2 : getNode r w.node_id = some w := getNode_at_member hs hw
    rw [hid] at g1
    exact Option.some.inj (g1.symm.trans g2)

/-- Witness for C1: join node 10 into the empty m = 8 ring, then insert a
record under key 5; routing for key 5 reaches node 10, the very node storing
the record. -/
theorem c1_ownership_witness :
    ∃ hops, find_successor
      { m := 8, nodes := [{ singleton_node with btree := [(5, [("c", "1")])] }] }
      5 none = some (some 10, hops) := by
  have hjoin : join_node { m := 8, nodes := [] } 10 none =
      some (singleton_ring, 0, 0) := by decide
  have hfresh : 10 ∉ ids { m := 8, nodes := [] } := by decide
  have hins : insert singleton_ring 5 [("c", "1")] none =
      some ({ m := 8, nodes := [{ singleton_node with btree := [(5, [("c", "1")])] }] }, 1) := by
    decide
  have hreach : Reach { m := 8, nodes := [{ singleton_node with btree := [(5, [("c", "1")])] }] } :=
    Reach.ins (Reach.join (Reach.empty 8) hfresh hjoin) hins
  obtain ⟨hmain, -⟩ := c1_ownership _ hreach
  exact hmain { singleton_node with btree := [(5, [("c", "1")])] } (by simp)
    (5, [("c", "1")]) (by simp) none (by decide)

end Chord
